import Mathlib

set_option maxRecDepth 40000

/-!
Verification of the ralph-orchestrator core against its specification.

The development shallowly embeds the Rust sources:
- `crates/ralph-proto/src/event_bus.rs` and `hat.rs` (event bus, hats),
- `crates/ralph-core/src/event_parser.rs` (event tag parsing),
- `crates/ralph-core/src/event_reader.rs` (JSONL tail reader),
- `crates/ralph-core/src/hatless_ralph.rs` (coordinator prompt builder).

Strings are embedded as `List Char` (Rust byte indices of the ASCII
patterns used by the code correspond one-to-one to char indices).
Rust `HashMap`s are embedded as association lists; where the code's
behaviour depends on the unspecified `HashMap` iteration order, that
order is made an explicit parameter.
-/

/-! ### Substring search primitives (Rust `str::find`, `contains`) -/

/-- Boolean prefix test on char lists. -/
def isPrefB : List Char → List Char → Bool
  | [], _ => true
  | _ :: _, [] => false
  | a :: as, b :: bs => a = b && isPrefB as bs

/-- First index at which `p` occurs in `s` (Rust `s.find(p)` in char units). -/
def findSub (s p : List Char) : Option Nat :=
  match s with
  | [] => if isPrefB p [] then some 0 else none
  | c :: t => if isPrefB p (c :: t) then some 0 else (findSub t p).map (· + 1)

/-- Substring containment (Rust `s.contains(p)`). -/
def containsB (s p : List Char) : Bool := (findSub s p).isSome

theorem isPrefB_iff_ex {p s : List Char} : isPrefB p s = true ↔ ∃ t, p ++ t = s := by
  induction p generalizing s with
  | nil => simp [isPrefB]
  | cons a as ih =>
    cases s with
    | nil => simp [isPrefB]
    | cons b bs =>
      simp only [isPrefB, Bool.and_eq_true, decide_eq_true_eq, ih]
      constructor
      · rintro ⟨rfl, t, rfl⟩; exact ⟨t, rfl⟩
      · rintro ⟨t, h⟩
        injection h with h1 h2
        exact ⟨h1, t, h2⟩

theorem isPrefB_self_append (p t : List Char) : isPrefB p (p ++ t) = true :=
  isPrefB_iff_ex.mpr ⟨t, rfl⟩

theorem isPrefB_refl (p : List Char) : isPrefB p p = true := by
  have := isPrefB_self_append p []
  simpa using this

theorem isPrefB_append_right {p s : List Char} (u : List Char)
    (h : isPrefB p s = true) : isPrefB p (s ++ u) = true := by
  obtain ⟨t, rfl⟩ := isPrefB_iff_ex.mp h
  have : p ++ (t ++ u) = p ++ t ++ u := by simp
  exact isPrefB_iff_ex.mpr ⟨t ++ u, this.symm ▸ rfl⟩

theorem isPrefB_length_le {p s : List Char} (h : isPrefB p s = true) :
    p.length ≤ s.length := by
  obtain ⟨t, rfl⟩ := isPrefB_iff_ex.mp h
  simp

/-- Characterisation of `findSub` returning `some i`. -/
theorem findSub_some {s p : List Char} {i : Nat} (h : findSub s p = some i) :
    isPrefB p (s.drop i) = true ∧ ∀ j, j < i → isPrefB p (s.drop j) = false := by
  induction s generalizing i with
  | nil =>
    unfold findSub at h
    by_cases hp : isPrefB p [] = true
    · simp [hp] at h
      subst h
      exact ⟨hp, by omega⟩
    · simp [hp] at h
  | cons c t ih =>
    unfold findSub at h
    by_cases hp : isPrefB p (c :: t) = true
    · simp [hp] at h
      subst h
      exact ⟨hp, by omega⟩
    · simp [hp] at h
      obtain ⟨j, hj, rfl⟩ := h
      obtain ⟨h1, h2⟩ := ih hj
      refine ⟨h1, ?_⟩
      intro k hk
      cases k with
      | zero => simpa using Bool.eq_false_iff.mpr hp
      | succ k' =>
        have : k' < j := by omega
        exact h2 k' this

/-- If `p` occurs at `k` and nowhere earlier, `findSub` returns `k`. -/
theorem findSub_eq_of_first {s p : List Char} {k : Nat}
    (hk : isPrefB p (s.drop k) = true)
    (hmin : ∀ j, j < k → isPrefB p (s.drop j) = false) :
    findSub s p = some k := by
  induction s generalizing k with
  | nil =>
    cases k with
    | zero => simp_all [findSub]
    | succ k' =>
      have h0 := hmin 0 (by omega)
      simp at h0 hk
      rw [h0] at hk
      exact absurd hk (by simp)
  | cons c t ih =>
    cases k with
    | zero =>
      simp only [List.drop_zero] at hk
      simp [findSub, hk]
    | succ k' =>
      have h0 := hmin 0 (by omega)
      simp only [List.drop_zero] at h0
      have hk' : isPrefB p (t.drop k') = true := hk
      have hmin' : ∀ j, j < k' → isPrefB p (t.drop j) = false := by
        intro j hj
        have := hmin (j + 1) (by omega)
        simpa using this
      unfold findSub
      rw [h0]
      simp [ih hk' hmin']

theorem findSub_none_iff {s p : List Char} :
    findSub s p = none ↔ ∀ j, isPrefB p (s.drop j) = false := by
  constructor
  · intro h j
    induction s generalizing j with
    | nil =>
      unfold findSub at h
      by_cases hp : isPrefB p [] = true
      · simp [hp] at h
      · simpa using Bool.eq_false_iff.mpr hp
    | cons c t ih =>
      unfold findSub at h
      by_cases hp : isPrefB p (c :: t) = true
      · simp [hp] at h
      · simp [hp] at h
        cases j with
        | zero => simpa using Bool.eq_false_iff.mpr hp
        | succ j' => exact ih h j'
  · intro h
    cases hf : findSub s p with
    | none => rfl
    | some i =>
      have := (findSub_some hf).1
      rw [h i] at this
      exact absurd this (by simp)

theorem containsB_of_at {s p : List Char} (j : Nat)
    (h : isPrefB p (s.drop j) = true) : containsB s p = true := by
  unfold containsB
  cases hf : findSub s p with
  | none => rw [findSub_none_iff.mp hf j] at h; exact absurd h (by simp)
  | some i => rfl

theorem containsB_false_iff {s p : List Char} :
    containsB s p = false ↔ ∀ j, isPrefB p (s.drop j) = false := by
  unfold containsB
  constructor
  · intro h j
    cases hf : findSub s p with
    | none => exact findSub_none_iff.mp hf j
    | some i => rw [hf] at h; simp at h
  · intro h
    rw [findSub_none_iff.mpr h]
    rfl

theorem isPrefB_iff_get {p s : List Char} :
    isPrefB p s = true ↔ p.length ≤ s.length ∧ ∀ k, k < p.length → s[k]? = p[k]? := by
  constructor
  · intro h
    obtain ⟨t, rfl⟩ := isPrefB_iff_ex.mp h
    refine ⟨by simp, ?_⟩
    intro k hk
    rw [List.getElem?_append]
    simp [hk]
  · intro ⟨hlen, hget⟩
    induction p generalizing s with
    | nil => simp [isPrefB]
    | cons a as ih =>
      cases s with
      | nil => simp at hlen
      | cons b bs =>
        have h0 := hget 0 (by simp)
        simp at h0
        simp only [isPrefB, Bool.and_eq_true, decide_eq_true_eq]
        refine ⟨h0.symm, ?_⟩
        apply ih
        · simpa using hlen
        · intro k hk
          have := hget (k + 1) (by simpa using hk)
          simpa using this

theorem isPrefB_drop_get {s p : List Char} {i : Nat} (h : isPrefB p (s.drop i) = true) :
    ∀ k, k < p.length → s[i + k]? = p[k]? := by
  intro k hk
  have := (isPrefB_iff_get.mp h).2 k hk
  rwa [List.getElem?_drop] at this

theorem isPrefB_drop_len {s p : List Char} {i : Nat} (hp : p ≠ [])
    (h : isPrefB p (s.drop i) = true) : i + p.length ≤ s.length := by
  have h1 := (isPrefB_iff_get.mp h).1
  simp only [List.length_drop] at h1
  have h2 : 1 ≤ p.length := by
    cases p with
    | nil => exact absurd rfl hp
    | cons _ _ => simp
  omega

theorem containsB_append_left {a p : List Char} (b : List Char)
    (h : containsB a p = true) : containsB (a ++ b) p = true := by
  unfold containsB at h
  cases hf : findSub a p with
  | none => rw [hf] at h; simp at h
  | some j =>
    have hj := (findSub_some hf).1
    apply containsB_of_at j
    by_cases hle : j ≤ a.length
    · rw [List.drop_append_of_le_length hle]
      exact isPrefB_append_right b hj
    · have : a.drop j = [] := List.drop_eq_nil_of_le (by omega)
      rw [this] at hj
      obtain ⟨t, ht⟩ := isPrefB_iff_ex.mp hj
      have : p = [] := by
        cases p with
        | nil => rfl
        | cons x xs => simp at ht
      subst this
      exact isPrefB_iff_ex.mpr ⟨_, rfl⟩
  
theorem containsB_append_right {b p : List Char} (a : List Char)
    (h : containsB b p = true) : containsB (a ++ b) p = true := by
  unfold containsB at h
  cases hf : findSub b p with
  | none => rw [hf] at h; simp at h
  | some j =>
    have hj := (findSub_some hf).1
    apply containsB_of_at (a.length + j)
    have : (a ++ b).drop (a.length + j) = b.drop j := by
      simp [List.drop_append]
    rwa [this]

theorem containsB_append_false (a b p : List Char)
    (ha : containsB a p = false) (hb : containsB b p = false)
    (hstr : ∀ k, 0 < k → k < p.length → k ≤ a.length →
      ¬ (isPrefB (p.drop k) b = true ∧ a.drop (a.length - k) = p.take k)) :
    containsB (a ++ b) p = false := by
  rw [containsB_false_iff]
  intro j
  by_contra hocc
  have hocc : isPrefB p ((a ++ b).drop j) = true := by
    cases h : isPrefB p ((a ++ b).drop j) with
    | false => exact absurd h hocc
    | true => rfl
  have hp : p ≠ [] := by
    intro hnil
    subst hnil
    have := containsB_of_at (s := a) (p := []) 0 (by simp [isPrefB])
    rw [this] at ha
    exact absurd ha (by simp)
  have hlen := isPrefB_drop_len hp hocc
  simp only [List.length_append] at hlen
  have hget := isPrefB_drop_get hocc
  by_cases h1 : j + p.length ≤ a.length
  · -- occurrence entirely inside a
    have : isPrefB p (a.drop j) = true := by
      rw [isPrefB_iff_get]
      refine ⟨by simp; omega, ?_⟩
      intro k hk
      rw [List.getElem?_drop]
      have := hget k hk
      rw [List.getElem?_append] at this
      simpa [show j + k < a.length by omega] using this
    rw [containsB_of_at j this] at ha
    exact absurd ha (by simp)
  · by_cases h2 : a.length ≤ j
    · -- occurrence entirely inside b
      have : isPrefB p (b.drop (j - a.length)) = true := by
        rw [isPrefB_iff_get]
        refine ⟨by simp; omega, ?_⟩
        intro k hk
        rw [List.getElem?_drop]
        have := hget k hk
        rw [List.getElem?_append] at this
        simpa [show ¬ (j + k < a.length) by omega,
          show j + k - a.length = j - a.length + k by omega] using this
      rw [containsB_of_at (j - a.length) this] at hb
      exact absurd hb (by simp)
    · -- straddles the boundary at k = a.length - j
      push_neg at h1 h2
      set k := a.length - j with hkdef
      have hk1 : 0 < k := by omega
      have hk2 : k < p.length := by omega
      have hk3 : k ≤ a.length := by omega
      apply hstr k hk1 hk2 hk3
      constructor
      · rw [isPrefB_iff_get]
        refine ⟨by simp; omega, ?_⟩
        intro m hm
        simp only [List.length_drop] at hm
        have := hget (k + m) (by omega)
        rw [List.getElem?_append] at this
        have hidx : ¬ (j + (k + m) < a.length) := by omega
        simp only [hidx, if_false] at this
        rw [List.getElem?_drop]
        simpa [show j + (k + m) - a.length = m by omega] using this
      · have hlen1 : (a.drop (a.length - k)).length = k := by simp; omega
        have hlen2 : (p.take k).length = k := by simp; omega
        apply List.ext_getElem?
        intro m
        by_cases hm : m < k
        · have := hget m (by omega)
          rw [List.getElem?_append] at this
          have hidx : j + m < a.length := by omega
          simp only [hidx, if_true] at this
          rw [List.getElem?_drop, List.getElem?_take]
          simp only [hm, if_true]
          rw [show a.length - k + m = j + m by omega]
          exact this
        · rw [List.getElem?_eq_none (by omega), List.getElem?_eq_none (by omega)]

theorem containsB_append_false_last {a p : List Char} (b : List Char) (c : Char)
    (hc : a.getLast? = some c) (hcp : c ∉ p)
    (ha : containsB a p = false) (hb : containsB b p = false) :
    containsB (a ++ b) p = false := by
  apply containsB_append_false a b p ha hb
  intro k hk1 hk2 hk3 ⟨_, heq⟩
  have hlast : a[a.length - 1]? = some c := by
    rwa [← List.getLast?_eq_getElem?]
  have := congrArg (fun l => l[k - 1]?) heq
  simp only [List.getElem?_drop, List.getElem?_take] at this
  rw [show a.length - k + (k - 1) = a.length - 1 by omega] at this
  simp only [show k - 1 < k by omega, if_true] at this
  rw [hlast] at this
  exact hcp (List.getElem?_mem this.symm)

theorem containsB_append_false_head {a p : List Char} (b : List Char) (c : Char)
    (hc : b[0]? = some c) (hcp : c ∉ p)
    (ha : containsB a p = false) (hb : containsB b p = false) :
    containsB (a ++ b) p = false := by
  apply containsB_append_false a b p ha hb
  intro k hk1 hk2 _ ⟨hpref, _⟩
  have := isPrefB_drop_get (i := 0) (by simpa using hpref) 0 (by simp; omega)
  simp only [List.getElem?_drop, Nat.add_zero, Nat.zero_add] at this
  rw [hc] at this
  exact hcp (List.getElem?_mem this.symm)

/-! ### Whitespace trimming (Rust `str::trim`) -/

/-- Rust `str::trim` on char lists (leading and trailing whitespace removed). -/
def trimList (l : List Char) : List Char :=
  ((l.dropWhile Char.isWhitespace).reverse.dropWhile Char.isWhitespace).reverse

/-! ### Topics and patterns -/

/-- Split a char list on a separator character; always emits the final chunk,
so `splitOnChar '.' "a.b" = ["a", "b"]` and `splitOnChar '.' "" = [""]`. -/
def splitOnCharAux (sep : Char) (cur : List Char) : List Char → List (List Char)
  | [] => [cur.reverse]
  | c :: t =>
    if c = sep then cur.reverse :: splitOnCharAux sep [] t
    else splitOnCharAux sep (c :: cur) t

def splitOnChar (sep : Char) (l : List Char) : List (List Char) :=
  splitOnCharAux sep [] l

/-- Segment-wise pattern match: a `*` segment matches exactly one topic segment,
literal segments compare byte-wise, and the segment counts must agree. -/
def segsMatch : List (List Char) → List (List Char) → Bool
  | [], [] => true
  | p :: ps, t :: ts => (p = ['*'] || p = t) && segsMatch ps ts
  | _, _ => false

/-- Modelled from the spec: `Topic::matches` of the `ralph-proto` crate, whose
`lib.rs` (defining `Topic`) is absent from the sources. Spec §4.1: split both
sides on `.`; a `*` segment matches exactly one topic segment unless it is the
sole pattern segment (the pattern `"*"`), which matches any topic; literal
segments compare byte-wise. -/
def topicMatches (pattern topic : String) : Bool :=
  if pattern = "*" then true
  else segsMatch (splitOnChar '.' pattern.data) (splitOnChar '.' topic.data)

/-! ### Events and hats -/

/-- Modelled from the spec: the `ralph-proto` `Event` record (its `lib.rs` is
absent from the sources): topic, payload, optional source hat, optional target
hat. The timestamp field is omitted: none of the verified operations reads it. -/
structure Event where
  topic : String
  payload : String
  source : Option String
  target : Option String
deriving DecidableEq, Repr

/-- A hat (persona), from `ralph-proto/src/hat.rs`. `HatId` is a newtype over
`String` and is embedded as `String` itself. -/
structure Hat where
  id : String
  name : String
  subscriptions : List String
  publishes : List String
  instructions : String
deriving DecidableEq, Repr

/-- `Hat::is_subscribed`: some subscription pattern matches the topic. -/
def Hat.isSubscribed (h : Hat) (topic : String) : Bool :=
  h.subscriptions.any fun sub => topicMatches sub topic

/-! ### The event bus (`ralph-proto/src/event_bus.rs`)

The two `HashMap`s are embedded as association lists with unique keys.
`HashMap::insert` replaces the value of an existing key and otherwise adds a
new entry; `HashMap::remove` deletes the key's entry. -/

/-- `HashMap::get` on an association list. -/
def lookupA {α : Type} : List (String × α) → String → Option α
  | [], _ => none
  | (k, v) :: t, id => if k = id then some v else lookupA t id

/-- `HashMap::insert` on an association list: replace or add. -/
def insertA {α : Type} : List (String × α) → String → α → List (String × α)
  | [], id, v => [(id, v)]
  | (k, w) :: t, id, v => if k = id then (k, v) :: t else (k, w) :: insertA t id v

/-- `HashMap::remove` on an association list (drops the first matching key). -/
def removeA {α : Type} : List (String × α) → String → List (String × α)
  | [], _ => []
  | (k, v) :: t, id => if k = id then t else (k, v) :: removeA t id

/-- `pending.entry(id).or_default().push(event)`: append the event to the
queue of `id`, creating an empty queue first if the key is absent. -/
def pushPending : List (String × List Event) → String → Event → List (String × List Event)
  | [], id, e => [(id, [e])]
  | (k, q) :: t, id, e =>
    if k = id then (k, q ++ [e]) :: t else (k, q) :: pushPending t id e

structure EventBus where
  hats : List (String × Hat)
  pending : List (String × List Event)
deriving Repr

def EventBus.empty : EventBus := ⟨[], []⟩

/-- The queue of pending events for a hat (empty if the key is absent). -/
def EventBus.queueOf (bus : EventBus) (id : String) : List Event :=
  (lookupA bus.pending id).getD []

/-- `EventBus::register`: insert into the hat map and initialize an empty
queue only when the id has no queue yet (`entry(id).or_default()`). -/
def EventBus.register (bus : EventBus) (h : Hat) : EventBus :=
  { hats := insertA bus.hats h.id h
    pending :=
      if (lookupA bus.pending h.id).isSome then bus.pending
      else bus.pending ++ [(h.id, [])] }

/-- `EventBus::get_hat`. -/
def EventBus.getHat (bus : EventBus) (id : String) : Option Hat :=
  lookupA bus.hats id

/-- The subscriber-routing loop of `EventBus::publish`: for each registered
hat in turn, skip it when it is the event's source, and otherwise deliver
when some subscription matches; recipients are collected in iteration order. -/
def routeSubs (e : Event) : List (String × Hat) → List (String × List Event) →
    List (String × List Event) × List String
  | [], pending => (pending, [])
  | (id, hat) :: rest, pending =>
    if e.source = some id then routeSubs e rest pending
    else if hat.isSubscribed e.topic then
      let r := routeSubs e rest (pushPending pending id e)
      (r.1, id :: r.2)
    else routeSubs e rest pending

/-- `EventBus::publish`: a direct target receives the event exactly when it is
registered (bypassing subscriptions and the no-self rule); otherwise the event
goes to every subscribed non-source hat. Returns the updated bus and the
recipient list. -/
def EventBus.publish (bus : EventBus) (e : Event) : EventBus × List String :=
  match e.target with
  | some t =>
    if (lookupA bus.hats t).isSome then
      ({ bus with pending := pushPending bus.pending t e }, [t])
    else (bus, [])
  | none =>
    let r := routeSubs e bus.hats bus.pending
    ({ bus with pending := r.1 }, r.2)

/-- `EventBus::take_pending`: remove and return the hat's whole queue. -/
def EventBus.takePending (bus : EventBus) (id : String) : List Event × EventBus :=
  ((lookupA bus.pending id).getD [], { bus with pending := removeA bus.pending id })

/-- `EventBus::has_pending`. -/
def EventBus.hasPending (bus : EventBus) : Bool :=
  bus.pending.any fun kv => ¬ kv.2.isEmpty

/-- The body of `EventBus::next_hat_with_pending` applied to one iteration
order of the pending `HashMap`: the first entry with a non-empty queue. The
code iterates `self.pending` in the `HashMap`'s unspecified order, so the
entry list is an explicit parameter ranging over permutations of the map. -/
def nextHatFrom (entries : List (String × List Event)) : Option String :=
  (entries.find? fun kv => ¬ kv.2.isEmpty).map fun kv => kv.1

/-! ### Association-list lemmas -/

theorem lookupA_mem {α : Type} {l : List (String × α)} {id : String} {v : α}
    (h : lookupA l id = some v) : (id, v) ∈ l := by
  induction l with
  | nil => simp [lookupA] at h
  | cons kv t ih =>
    obtain ⟨k, w⟩ := kv
    unfold lookupA at h
    by_cases hk : k = id
    · simp [hk] at h
      subst hk
      subst h
      exact List.mem_cons_self _ _
    · simp [hk] at h
      exact List.mem_cons_of_mem _ (ih h)

theorem mem_lookupA_of_nodup {α : Type} {l : List (String × α)} {id : String} {v : α}
    (hnd : (l.map Prod.fst).Nodup) (h : (id, v) ∈ l) : lookupA l id = some v := by
  induction l with
  | nil => simp at h
  | cons kv t ih =>
    obtain ⟨k, w⟩ := kv
    simp only [List.map_cons, List.nodup_cons] at hnd
    rcases List.mem_cons.mp h with heq | htl
    · injection heq with h1 h2
      subst h1; subst h2
      simp [lookupA]
    · have hk : k ≠ id := by
        intro hkid
        subst hkid
        exact hnd.1 (List.mem_map.mpr ⟨(k, v), htl, rfl⟩)
      simp [lookupA, hk]
      exact ih hnd.2 htl

theorem lookupA_append {α : Type} (l1 l2 : List (String × α)) (k : String) :
    lookupA (l1 ++ l2) k =
      match lookupA l1 k with
      | some v => some v
      | none => lookupA l2 k := by
  induction l1 with
  | nil => simp [lookupA]
  | cons kv t ih =>
    obtain ⟨k', v'⟩ := kv
    by_cases hk : k' = k
    · simp [lookupA, hk]
    · simp [lookupA, hk, ih]

theorem lookupA_insertA_self {α : Type} (l : List (String × α)) (id : String) (v : α) :
    lookupA (insertA l id v) id = some v := by
  induction l with
  | nil => simp [insertA, lookupA]
  | cons kv t ih =>
    obtain ⟨k, w⟩ := kv
    by_cases hk : k = id
    · simp [insertA, lookupA, hk]
    · simp [insertA, lookupA, hk, ih]


theorem lookupA_insertA_other {α : Type} (l : List (String × α)) (id k : String) (v : α)
    (hk : k ≠ id) : lookupA (insertA l id v) k = lookupA l k := by
  have hik : id ≠ k := Ne.symm hk
  induction l with
  | nil => simp [insertA, lookupA, hik]
  | cons kv t ih =>
    obtain ⟨k', w⟩ := kv
    by_cases hk' : k' = id
    · subst hk'
      simp [insertA, lookupA, hik]
    · by_cases hkk : k' = k
      · simp [insertA, lookupA, hk', hkk, hk]
      · simp [insertA, lookupA, hk', hkk, ih]

theorem lookupA_removeA_self {α : Type} (l : List (String × α)) (id : String)
    (hnd : (l.map Prod.fst).Nodup) : lookupA (removeA l id) id = none := by
  induction l with
  | nil => simp [removeA, lookupA]
  | cons kv t ih =>
    obtain ⟨k, w⟩ := kv
    simp only [List.map_cons, List.nodup_cons] at hnd
    by_cases hk : k = id
    · subst hk
      simp only [removeA, if_pos rfl]
      cases hl : lookupA t k with
      | none => exact hl
      | some v =>
        exact absurd (List.mem_map.mpr ⟨(k, v), lookupA_mem hl, rfl⟩) hnd.1
    · simp [removeA, lookupA, hk, ih hnd.2]

theorem lookupA_removeA_other {α : Type} (l : List (String × α)) (id k : String)
    (hk : k ≠ id) : lookupA (removeA l id) k = lookupA l k := by
  induction l with
  | nil => simp [removeA]
  | cons kv t ih =>
    obtain ⟨k', w⟩ := kv
    by_cases hk' : k' = id
    · subst hk'
      have h2 : k' ≠ k := Ne.symm hk
      simp [removeA, lookupA, h2]
    · by_cases hkk : k' = k
      · simp [removeA, lookupA, hk', hkk, hk]
      · simp [removeA, lookupA, hk', hkk, ih]

theorem lookupA_pushPending_self (p : List (String × List Event)) (id : String) (e : Event) :
    lookupA (pushPending p id e) id = some ((lookupA p id).getD [] ++ [e]) := by
  induction p with
  | nil => simp [pushPending, lookupA]
  | cons kv t ih =>
    obtain ⟨k, q⟩ := kv
    by_cases hk : k = id
    · simp [pushPending, lookupA, hk]
    · simp [pushPending, lookupA, hk, ih]

theorem lookupA_pushPending_other (p : List (String × List Event)) (id k : String) (e : Event)
    (hk : k ≠ id) : lookupA (pushPending p id e) k = lookupA p k := by
  have hik : id ≠ k := Ne.symm hk
  induction p with
  | nil => simp [pushPending, lookupA, hik]
  | cons kv t ih =>
    obtain ⟨k', q⟩ := kv
    by_cases hk' : k' = id
    · subst hk'
      simp [pushPending, lookupA, hik]
    · by_cases hkk : k' = k
      · simp [pushPending, lookupA, hk', hkk, hk]
      · simp [pushPending, lookupA, hk', hkk, ih]

/-- The queue of a hat in a raw pending list. -/
def queueOfL (p : List (String × List Event)) (id : String) : List Event :=
  (lookupA p id).getD []

theorem queueOfL_pushPending_self (p : List (String × List Event)) (id : String) (e : Event) :
    queueOfL (pushPending p id e) id = queueOfL p id ++ [e] := by
  simp [queueOfL, lookupA_pushPending_self]

theorem queueOfL_pushPending_other (p : List (String × List Event)) (id k : String) (e : Event)
    (hk : k ≠ id) : queueOfL (pushPending p id e) k = queueOfL p k := by
  simp [queueOfL, lookupA_pushPending_other p id k e hk]

/-! ### Routing lemmas -/

/-- The subscriber-routing condition: some registered entry for `id` is not
the event's source and has a matching subscription. -/
def Delivers (e : Event) (hats : List (String × Hat)) (id : String) : Prop :=
  ∃ h, (id, h) ∈ hats ∧ e.source ≠ some id ∧ h.isSubscribed e.topic = true

theorem routeSubs_mem (e : Event) (hats : List (String × Hat))
    (pending : List (String × List Event)) (id : String) :
    id ∈ (routeSubs e hats pending).2 ↔ Delivers e hats id := by
  induction hats generalizing pending with
  | nil => simp [routeSubs, Delivers]
  | cons kv rest ih =>
    obtain ⟨k, hat⟩ := kv
    by_cases hsrc : e.source = some k
    · simp only [routeSubs, if_pos hsrc]
      rw [ih]
      constructor
      · rintro ⟨h, hm, hs, hsub⟩
        exact ⟨h, List.mem_cons_of_mem _ hm, hs, hsub⟩
      · rintro ⟨h, hm, hs, hsub⟩
        rcases List.mem_cons.mp hm with heq | htl
        · injection heq with h1 h2
          subst h1
          exact absurd hsrc hs
        · exact ⟨h, htl, hs, hsub⟩
    · by_cases hsub : hat.isSubscribed e.topic = true
      · simp only [routeSubs, if_neg hsrc, if_pos hsub, List.mem_cons]
        rw [ih]
        constructor
        · rintro (rfl | hd)
          · exact ⟨hat, List.mem_cons_self _ _, hsrc, hsub⟩
          · obtain ⟨h, hm, hs, hsb⟩ := hd
            exact ⟨h, List.mem_cons_of_mem _ hm, hs, hsb⟩
        · rintro ⟨h, hm, hs, hsb⟩
          rcases List.mem_cons.mp hm with heq | htl
          · injection heq with h1 h2
            exact Or.inl h1
          · exact Or.inr ⟨h, htl, hs, hsb⟩
      · simp only [routeSubs, if_neg hsrc, if_neg hsub]
        rw [ih]
        constructor
        · rintro ⟨h, hm, hs, hsb⟩
          exact ⟨h, List.mem_cons_of_mem _ hm, hs, hsb⟩
        · rintro ⟨h, hm, hs, hsb⟩
          rcases List.mem_cons.mp hm with heq | htl
          · injection heq with h1 h2
            subst h1; subst h2
            exact absurd hsb hsub
          · exact ⟨h, htl, hs, hsb⟩

theorem routeSubs_queue_neg (e : Event) (hats : List (String × Hat))
    (pending : List (String × List Event)) (id : String)
    (hnd : ¬ Delivers e hats id) :
    queueOfL (routeSubs e hats pending).1 id = queueOfL pending id := by
  induction hats generalizing pending with
  | nil => simp [routeSubs]
  | cons kv rest ih =>
    obtain ⟨k, hat⟩ := kv
    have hnd' : ¬ Delivers e rest id := by
      intro ⟨h, hm, hs, hsb⟩
      exact hnd ⟨h, List.mem_cons_of_mem _ hm, hs, hsb⟩
    by_cases hsrc : e.source = some k
    · simp only [routeSubs, if_pos hsrc]
      exact ih _ hnd'
    · by_cases hsub : hat.isSubscribed e.topic = true
      · have hk : k ≠ id := by
          intro hkid
          subst hkid
          exact hnd ⟨hat, List.mem_cons_self _ _, hsrc, hsub⟩
        simp only [routeSubs, if_neg hsrc, if_pos hsub]
        rw [ih _ hnd', queueOfL_pushPending_other _ _ _ _ (Ne.symm hk)]
      · simp only [routeSubs, if_neg hsrc, if_neg hsub]
        exact ih _ hnd'

theorem routeSubs_queue_pos (e : Event) (hats : List (String × Hat))
    (pending : List (String × List Event)) (id : String) (hat : Hat)
    (hnd : (hats.map Prod.fst).Nodup)
    (hm : (id, hat) ∈ hats) (hs : e.source ≠ some id)
    (hsub : hat.isSubscribed e.topic = true) :
    queueOfL (routeSubs e hats pending).1 id = queueOfL pending id ++ [e] := by
  induction hats generalizing pending with
  | nil => simp at hm
  | cons kv rest ih =>
    obtain ⟨k, h0⟩ := kv
    simp only [List.map_cons, List.nodup_cons] at hnd
    rcases List.mem_cons.mp hm with heq | htl
    · injection heq with h1 h2
      subst h1; subst h2
      simp only [routeSubs, if_neg (fun h => hs h), if_pos hsub]
      have hnotin : ¬ Delivers e rest id := by
        rintro ⟨h, hmem, _, _⟩
        exact hnd.1 (List.mem_map.mpr ⟨(id, h), hmem, rfl⟩)
      rw [routeSubs_queue_neg e rest _ id hnotin, queueOfL_pushPending_self]
    · have hk : k ≠ id := by
        intro hkid
        subst hkid
        exact hnd.1 (List.mem_map.mpr ⟨(k, hat), htl, rfl⟩)
      by_cases hsrc : e.source = some k
      · simp only [routeSubs, if_pos hsrc]
        exact ih _ hnd.2 htl
      · by_cases hsub0 : h0.isSubscribed e.topic = true
        · simp only [routeSubs, if_neg hsrc, if_pos hsub0]
          rw [ih _ hnd.2 htl, queueOfL_pushPending_other _ _ _ _ (Ne.symm hk)]
        · simp only [routeSubs, if_neg hsrc, if_neg hsub0]
          exact ih _ hnd.2 htl

/-! ### Claim C1: publish routing -/

/-- C1: for every event `e` and registered hat `h` (looked up at `id`),
`publish e` lists `id` as a recipient, and appends `e` to the hat's pending
queue, exactly when `e.target = some id`, or `e.target` is unset, `e.source`
is not `id`, and some subscription of `h` matches `e.topic`. In particular a
directed event reaches its target regardless of subscriptions and of the
no-self rule, and in all other cases the queue is unchanged. -/
theorem publish_routes_iff (bus : EventBus) (e : Event) (id : String) (h : Hat)
    (hnd : (bus.hats.map Prod.fst).Nodup)
    (hreg : bus.getHat id = some h) :
    (id ∈ (bus.publish e).2 ↔
      e.target = some id ∨
        (e.target = none ∧ e.source ≠ some id ∧ h.isSubscribed e.topic = true)) ∧
    ((e.target = some id ∨
        (e.target = none ∧ e.source ≠ some id ∧ h.isSubscribed e.topic = true)) →
      (bus.publish e).1.queueOf id = bus.queueOf id ++ [e]) ∧
    (¬ (e.target = some id ∨
        (e.target = none ∧ e.source ≠ some id ∧ h.isSubscribed e.topic = true)) →
      (bus.publish e).1.queueOf id = bus.queueOf id) := by
  have hmem : (id, h) ∈ bus.hats := lookupA_mem hreg
  cases ht : e.target with
  | none =>
    have hdel : Delivers e bus.hats id ↔
        (e.source ≠ some id ∧ h.isSubscribed e.topic = true) := by
      constructor
      · rintro ⟨h', hm', hs', hsb'⟩
        have hl' : lookupA bus.hats id = some h' := mem_lookupA_of_nodup hnd hm'
        have hreg' : lookupA bus.hats id = some h := hreg
        rw [hreg'] at hl'
        injection hl' with hh
        subst hh
        exact ⟨hs', hsb'⟩
      · rintro ⟨hs, hsb⟩
        exact ⟨h, hmem, hs, hsb⟩
    refine ⟨?_, ?_, ?_⟩
    · simp only [EventBus.publish, ht]
      rw [routeSubs_mem, hdel]
      simp
    · rintro (habs | ⟨_, hs, hsb⟩)
      · simp [ht] at habs
      · simp only [EventBus.publish, ht]
        exact routeSubs_queue_pos e bus.hats bus.pending id h hnd hmem hs hsb
    · intro hnot
      simp only [EventBus.publish, ht]
      apply routeSubs_queue_neg
      rw [hdel]
      intro ⟨hs, hsb⟩
      exact hnot (Or.inr ⟨rfl, hs, hsb⟩)
  | some t =>
    have hsome : t = id → (lookupA bus.hats t).isSome := by
      intro hte
      subst hte
      show (bus.getHat t).isSome
      rw [hreg]
      rfl
    refine ⟨?_, ?_, ?_⟩
    · simp only [EventBus.publish, ht]
      by_cases hte : t = id
      · subst hte
        rw [if_pos (hsome rfl)]
        simp
      · constructor
        · intro hin
          by_cases hl : (lookupA bus.hats t).isSome
          · rw [if_pos hl] at hin
            simp at hin
            exact absurd hin.symm hte
          · rw [if_neg hl] at hin
            simp at hin
        · rintro (habs | ⟨habs, _, _⟩)
          · injection habs with habs
            exact absurd habs hte
          · simp at habs
    · rintro (htg | ⟨habs, _, _⟩)
      · injection htg with htg
        subst htg
        simp only [EventBus.publish, ht, if_pos (hsome rfl)]
        show queueOfL (pushPending bus.pending t e) t = queueOfL bus.pending t ++ [e]
        exact queueOfL_pushPending_self bus.pending t e
      · simp at habs
    · intro hnot
      have hte : t ≠ id := by
        intro hteq
        subst hteq
        exact hnot (Or.inl rfl)
      simp only [EventBus.publish, ht]
      by_cases hl : (lookupA bus.hats t).isSome
      · rw [if_pos hl]
        show queueOfL (pushPending bus.pending t e) id = queueOfL bus.pending id
        exact queueOfL_pushPending_other bus.pending t id e (Ne.symm hte)
      · rw [if_neg hl]

def c1_hat : Hat := ⟨"impl", "Implementer", ["task.*"], [], ""⟩

def c1_bus : EventBus := EventBus.empty.register c1_hat

def c1_event : Event := ⟨"task.start", "Start implementing", none, none⟩

/-- Witness for C1 at a concrete bus and event. -/
theorem publish_routes_iff_witness :
    "impl" ∈ (c1_bus.publish c1_event).2 ∧
    (c1_bus.publish c1_event).1.queueOf "impl" = c1_bus.queueOf "impl" ++ [c1_event] := by
  have H := publish_routes_iff c1_bus c1_event "impl" c1_hat (by decide) (by decide)
  have hc : c1_event.target = some "impl" ∨
      (c1_event.target = none ∧ c1_event.source ≠ some "impl" ∧
        c1_hat.isSubscribed c1_event.topic = true) :=
    Or.inr ⟨rfl, by decide, by decide⟩
  exact ⟨H.1.mpr hc, H.2.1 hc⟩

/-! ### Claim C2: duplicate registration -/

def c2_hat1 : Hat := ⟨"x", "First", [], [], ""⟩

def c2_hat2 : Hat := ⟨"x", "Second", [], [], ""⟩

/-- C2 counterexample: registering a second hat with an id that is already
present does not surface any error — `register` has no error channel at all —
and silently replaces the stored hat. -/
theorem register_duplicate_counterexample :
    ((EventBus.empty.register c2_hat1).register c2_hat2).getHat "x" = some c2_hat2 ∧
    c2_hat2 ≠ c2_hat1 := by
  constructor
  · decide
  · decide

/-- C2 (amended): `EventBus::register` never rejects a duplicate id; it
stores the new hat under the id (replacing any previous definition) and
leaves every other id's registration unchanged. -/
theorem register_replaces (bus : EventBus) (h : Hat) :
    (bus.register h).getHat h.id = some h ∧
    ∀ id, id ≠ h.id → (bus.register h).getHat id = bus.getHat id := by
  constructor
  · show lookupA (insertA bus.hats h.id h) h.id = some h
    exact lookupA_insertA_self bus.hats h.id h
  · intro id hid
    show lookupA (insertA bus.hats h.id h) id = lookupA bus.hats id
    exact lookupA_insertA_other bus.hats h.id id h hid

/-- Witness for the amended C2. -/
theorem register_replaces_witness :
    ((EventBus.empty.register c2_hat1).register c2_hat2).getHat "x" = some c2_hat2 ∧
    ((EventBus.empty.register c2_hat1).register c2_hat2).getHat "y" =
      (EventBus.empty.register c2_hat1).getHat "y" := by
  have H := register_replaces (EventBus.empty.register c2_hat1) c2_hat2
  exact ⟨H.1, H.2 "y" (by decide)⟩

/-! ### Claim C3: next-hat selection -/

def c3_event : Event := ⟨"task.start", "go", none, none⟩

/-- C3 counterexample: with the coordinator `ralph` registered first and both
`ralph` and `worker` holding pending events, the entry order
`worker, ralph` is a permutation of the pending map (so it is an admissible
`HashMap` iteration order), yet `next_hat_with_pending` picks `worker`, not
the earliest-registered hat — and there is no `coordinator_priority`
configuration flag anywhere in the sources that could change this. -/
theorem next_hat_counterexample :
    List.Perm [("worker", [c3_event]), ("ralph", [c3_event])]
      [("ralph", [c3_event]), ("worker", [c3_event])] ∧
    nextHatFrom [("worker", [c3_event]), ("ralph", [c3_event])] = some "worker" ∧
    some "worker" ≠ some "ralph" := by
  refine ⟨List.Perm.swap _ _ _, ?_, by decide⟩
  decide

/-- C3 (amended): `next_hat_with_pending` returns the first entry with a
non-empty queue in whatever order the pending `HashMap` is iterated: any
returned hat has a non-empty queue, some hat is returned whenever any queue
is non-empty, and when exactly one hat has a non-empty queue that hat is
returned irrespective of the iteration order. -/
theorem next_hat_amended (entries : List (String × List Event)) :
    (∀ id, nextHatFrom entries = some id → ∃ q, (id, q) ∈ entries ∧ q ≠ []) ∧
    ((∃ kv, kv ∈ entries ∧ kv.2 ≠ []) → (nextHatFrom entries).isSome = true) ∧
    (∀ id0 q0, (id0, q0) ∈ entries → q0 ≠ [] →
      (∀ kv, kv ∈ entries → kv.2 ≠ [] → kv.1 = id0) →
      nextHatFrom entries = some id0) := by
  induction entries with
  | nil =>
    refine ⟨?_, ?_, ?_⟩
    · intro id hid
      simp [nextHatFrom] at hid
    · rintro ⟨kv, hm, _⟩
      simp at hm
    · intro id0 q0 hm
      simp at hm
  | cons kv t ih =>
    obtain ⟨k, q⟩ := kv
    by_cases hq : q.isEmpty
    · have hqe : q = [] := by
        cases q with
        | nil => rfl
        | cons _ _ => simp at hq
      subst hqe
      have hstep : nextHatFrom ((k, ([] : List Event)) :: t) = nextHatFrom t := by
        simp [nextHatFrom, List.find?]
      refine ⟨?_, ?_, ?_⟩
      · intro id hid
        rw [hstep] at hid
        obtain ⟨q', hm', hq'⟩ := ih.1 id hid
        exact ⟨q', List.mem_cons_of_mem _ hm', hq'⟩
      · rintro ⟨kv', hm', hne'⟩
        rw [hstep]
        rcases List.mem_cons.mp hm' with heq | htl
        · subst heq
          simp at hne'
        · exact ih.2.1 ⟨kv', htl, hne'⟩
      · intro id0 q0 hm0 hq0 hall
        rw [hstep]
        rcases List.mem_cons.mp hm0 with heq | htl
        · injection heq with h1 h2
          subst h2
          exact absurd rfl hq0
        · exact ih.2.2 id0 q0 htl hq0 fun kv' hm' hne' =>
            hall kv' (List.mem_cons_of_mem _ hm') hne'
    · have hstep : nextHatFrom ((k, q) :: t) = some k := by
        simp [nextHatFrom, List.find?, hq]
      refine ⟨?_, ?_, ?_⟩
      · intro id hid
        rw [hstep] at hid
        injection hid with hid
        subst hid
        refine ⟨q, List.mem_cons_self _ _, ?_⟩
        cases q with
        | nil => simp at hq
        | cons _ _ => simp
      · intro _
        rw [hstep]
        rfl
      · intro id0 q0 hm0 hq0 hall
        rw [hstep]
        have : k = id0 := by
          apply hall (k, q) (List.mem_cons_self _ _)
          cases q with
          | nil => simp at hq
          | cons _ _ => simp
        rw [this]

def c3_pending : List (String × List Event) := [("a", []), ("b", [c3_event])]

/-- Witness for the amended C3: only `b` has a non-empty queue, so `b` is
selected. -/
theorem next_hat_amended_witness : nextHatFrom c3_pending = some "b" := by
  have H := next_hat_amended c3_pending
  apply H.2.2 "b" [c3_event]
  · decide
  · decide
  · decide

/-! ### Claim C4: take_pending -/

/-- C4: `take_pending` returns the hat's whole queue (whose contents are in
publish order, since `publish` appends at the tail), an immediately repeated
take returns the empty list, no other hat's queue changes, and the hat
registry is untouched. -/
theorem take_pending_spec (bus : EventBus) (id : String)
    (hnd : (bus.pending.map Prod.fst).Nodup) :
    (bus.takePending id).1 = bus.queueOf id ∧
    ((bus.takePending id).2.takePending id).1 = [] ∧
    (∀ id2, id2 ≠ id → (bus.takePending id).2.queueOf id2 = bus.queueOf id2) ∧
    (bus.takePending id).2.hats = bus.hats := by
  refine ⟨rfl, ?_, ?_, rfl⟩
  · show (lookupA (removeA bus.pending id) id).getD [] = []
    rw [lookupA_removeA_self bus.pending id hnd]
    rfl
  · intro id2 h2
    show (lookupA (removeA bus.pending id) id2).getD [] =
      (lookupA bus.pending id2).getD []
    rw [lookupA_removeA_other bus.pending id id2 h2]

def c4_ev : Event := ⟨"task.start", "payload", none, none⟩

def c4_bus : EventBus := ⟨[], [("a", [c4_ev]), ("b", [c4_ev])]⟩

/-- Witness for C4 at a concrete bus. -/
theorem take_pending_spec_witness :
    (c4_bus.takePending "a").1 = [c4_ev] ∧
    ((c4_bus.takePending "a").2.takePending "a").1 = [] ∧
    (c4_bus.takePending "a").2.queueOf "b" = [c4_ev] := by
  have H := take_pending_spec c4_bus "a" (by decide)
  refine ⟨?_, H.2.1, ?_⟩
  · rw [H.1]
    decide
  · rw [H.2.2.1 "b" (by decide)]
    decide

/-! ### Claim C10: re-registration keeps queued events -/

/-- C10: registering a hat whose id already exists replaces the stored hat
definition but leaves every pending queue untouched, so events queued before
the re-registration are still returned by `take_pending`. -/
theorem register_keeps_queues (bus : EventBus) (h : Hat) (id : String) :
    (bus.register h).queueOf id = bus.queueOf id ∧
    (bus.register h).getHat h.id = some h ∧
    ((bus.register h).takePending id).1 = bus.queueOf id := by
  have hq : (bus.register h).queueOf id = bus.queueOf id := by
    show (lookupA (if (lookupA bus.pending h.id).isSome then bus.pending
        else bus.pending ++ [(h.id, [])]) id).getD [] =
      (lookupA bus.pending id).getD []
    by_cases hs : (lookupA bus.pending h.id).isSome
    · rw [if_pos hs]
    · rw [if_neg hs, lookupA_append]
      cases hl : lookupA bus.pending id with
      | some v => simp
      | none =>
        simp only
        by_cases hid : h.id = id
        · simp [lookupA, hid]
        · simp [lookupA, hid]
  refine ⟨hq, ?_, hq⟩
  show lookupA (insertA bus.hats h.id h) h.id = some h
  exact lookupA_insertA_self bus.hats h.id h

/-! ### The event reader (`ralph-core/src/event_reader.rs`)

The file system is embedded as an `Option (List Char)` (absent file or file
content), and JSON decoding (`serde_json`, external to the sources) as a
decode parameter plus a concrete spec-modelled instance below. -/

/-- The reader's simplified event record (`event_reader.rs`). -/
structure ReadEvent where
  topic : String
  payload : Option String
  ts : String
deriving DecidableEq, Repr

/-- The `.r` stripping of `BufRead::lines`: a line that was terminated by
`\n` additionally loses one trailing `\r` if present. -/
def stripCr (l : List Char) : List Char :=
  if l.getLast? = some '\r' then l.dropLast else l

/-- The iteration of `BufRead::lines`: chunks are read up to and including
each `\n`; the `\n` is stripped, then one `\r`; a final chunk not terminated
by `\n` is yielded as-is (no `\r` stripping); no empty line is yielded after
a final `\n`. -/
def rustLinesAux (cur : List Char) : List Char → List (List Char)
  | [] => [cur.reverse]
  | c :: t =>
    if c = '\n' then
      match t with
      | [] => [stripCr cur.reverse]
      | _ :: _ => stripCr cur.reverse :: rustLinesAux [] t
    else rustLinesAux (c :: cur) t

def rustLines (s : List Char) : List (List Char) :=
  match s with
  | [] => []
  | _ :: _ => rustLinesAux [] s

/-- A reader is its byte position (the path is external context). -/
structure ReaderState where
  position : Nat
deriving DecidableEq, Repr

/-- The per-line loop of `read_new_events`: an all-whitespace line is
skipped, a decodable line is kept, a corrupt line is skipped with a warning;
the position advances by `line.len() + 1` in every case. -/
def processLines (decode : List Char → Option ReadEvent) :
    List (List Char) → Nat → List ReadEvent × Nat
  | [], pos => ([], pos)
  | l :: ls, pos =>
    let pos1 := pos + (l.length + 1)
    if (trimList l).isEmpty then processLines decode ls pos1
    else
      match decode l with
      | some e =>
        let r := processLines decode ls pos1
        (e :: r.1, r.2)
      | none => processLines decode ls pos1

/-- `EventReader::read_new_events`: an absent file yields no events and does
not move the position; otherwise the content from the current position is
read line by line. -/
def readNewEvents (decode : List Char → Option ReadEvent)
    (file : Option (List Char)) (st : ReaderState) : List ReadEvent × ReaderState :=
  match file with
  | none => ([], st)
  | some content =>
    let r := processLines decode (rustLines (content.drop st.position)) st.position
    (r.1, ⟨r.2⟩)

/-- `EventReader::reset`. -/
def readerReset (_st : ReaderState) : ReaderState := ⟨0⟩

def chompLit (lit s : List Char) : Option (List Char) :=
  if isPrefB lit s then some (s.drop lit.length) else none

def splitAtQuote (s : List Char) : Option (List Char × List Char) :=
  match findSub s ['"'] with
  | none => none
  | some i => some (s.take i, s.drop (i + 1))

/-- Modelled from the spec: `serde_json` decoding of one event-log line into
`{topic, payload?, ts}` (§6: one JSON object per line). `serde_json` is an
external crate, so only the canonical un-escaped rendering shown in the spec
is modelled; it is used to instantiate the decode parameter in witnesses. -/
def decodeEventLine (l : List Char) : Option ReadEvent :=
  match chompLit "\x7b\"topic\":\"".data l with
  | none => none
  | some r1 =>
    match splitAtQuote r1 with
    | none => none
    | some (t, r2) =>
      match chompLit ",\"payload\":\"".data r2 with
      | some r3 =>
        match splitAtQuote r3 with
        | none => none
        | some (p, r4) =>
          match chompLit ",\"ts\":\"".data r4 with
          | none => none
          | some r5 =>
            match splitAtQuote r5 with
            | none => none
            | some (ts, r6) =>
              if r6 = ['\x7d'] then some ⟨⟨t⟩, some ⟨p⟩, ⟨ts⟩⟩ else none
      | none =>
        match chompLit ",\"ts\":\"".data r2 with
        | none => none
        | some r5 =>
          match splitAtQuote r5 with
          | none => none
          | some (ts, r6) =>
            if r6 = ['\x7d'] then some ⟨⟨t⟩, none, ⟨ts⟩⟩ else none

def sumBytes (ls : List (List Char)) : Nat := (ls.map fun l => l.length + 1).sum

theorem processLines_spec (d : List Char → Option ReadEvent)
    (ls : List (List Char)) (pos : Nat) :
    processLines d ls pos =
      (ls.filterMap (fun l => if (trimList l).isEmpty then none else d l),
        pos + sumBytes ls) := by
  induction ls generalizing pos with
  | nil => simp [processLines, sumBytes]
  | cons l t ih =>
    by_cases he : (trimList l).isEmpty
    · simp only [processLines, if_pos he, ih, List.filterMap_cons, he, if_true,
        sumBytes, List.map_cons, List.sum_cons]
      simp [Nat.add_assoc]
    · cases hd : d l with
      | some e =>
        simp only [processLines, if_neg he, hd, ih, List.filterMap_cons, he,
          if_false, sumBytes, List.map_cons, List.sum_cons]
        simp [Nat.add_assoc]
      | none =>
        simp only [processLines, if_neg he, hd, ih, List.filterMap_cons, he,
          if_false, sumBytes, List.map_cons, List.sum_cons]
        simp [Nat.add_assoc]

/-! ### Claim C7: read_new_events behaviour -/

/-- C7: for any decoder, a missing file gives no events and no error (and the
position keeps still); for an existing file the result is exactly the
non-all-whitespace lines after the current position that decode, in file
order, and the position advances by `len(line) + 1` for every visited line —
kept, empty and corrupt alike. -/
theorem read_new_events_spec (d : List Char → Option ReadEvent)
    (st : ReaderState) (content : List Char) :
    readNewEvents d none st = ([], st) ∧
    readNewEvents d (some content) st =
      ((rustLines (content.drop st.position)).filterMap
          (fun l => if (trimList l).isEmpty then none else d l),
        ⟨st.position + sumBytes (rustLines (content.drop st.position))⟩) := by
  constructor
  · rfl
  · show ((processLines d (rustLines (content.drop st.position)) st.position).1,
        (⟨(processLines d (rustLines (content.drop st.position)) st.position).2⟩ :
          ReaderState)) = _
    rw [processLines_spec]

/-! ### Claim C8: idempotence and monotonicity -/

theorem head_of_reverse (l : List Char) : l.reverse.getLast? = l.head? := by
  cases l with
  | nil => rfl
  | cons c t => simp

theorem containsB_cons_shift {c : Char} {t p : List Char}
    (h : containsB (c :: t) p = false) : containsB t p = false := by
  rw [containsB_false_iff] at h ⊢
  intro j
  have := h (j + 1)
  simpa using this

theorem crlf_head {c : Char} {t : List Char}
    (h : containsB (c :: t) ['\r', '\n'] = false) :
    ¬ (c = '\r' ∧ t.head? = some '\n') := by
  rintro ⟨rfl, hh⟩
  have h0 := containsB_false_iff.mp h 0
  simp only [List.drop_zero] at h0
  cases t with
  | nil => simp at hh
  | cons d t' =>
    simp at hh
    subst hh
    simp [isPrefB] at h0

theorem rustLinesAux_nl_nil (cur : List Char) :
    rustLinesAux cur ['\n'] = [stripCr cur.reverse] := by
  simp [rustLinesAux]

theorem rustLinesAux_nl_cons (cur : List Char) (d : Char) (t : List Char) :
    rustLinesAux cur ('\n' :: d :: t) = stripCr cur.reverse :: rustLinesAux [] (d :: t) := by
  simp [rustLinesAux]

theorem rustLinesAux_other (cur : List Char) (c : Char) (t : List Char) (hc : c ≠ '\n') :
    rustLinesAux cur (c :: t) = rustLinesAux (c :: cur) t := by
  simp [rustLinesAux, hc]

theorem sumBytes_aux_ge (s : List Char) : ∀ cur : List Char,
    containsB s ['\r', '\n'] = false →
    (cur.head? = some '\r' → s.head? ≠ some '\n') →
    s.length + cur.length ≤ sumBytes (rustLinesAux cur s) := by
  induction s with
  | nil =>
    intro cur _ _
    simp [rustLinesAux, sumBytes]
  | cons c t ih =>
    intro cur hno hinv
    by_cases hc : c = '\n'
    · subst hc
      have hcur : cur.reverse.getLast? ≠ some '\r' := by
        rw [head_of_reverse]
        intro hh
        exact hinv hh rfl
      have hstrip : stripCr cur.reverse = cur.reverse := by
        unfold stripCr
        rw [if_neg hcur]
      cases t with
      | nil =>
        rw [rustLinesAux_nl_nil, hstrip]
        simp only [sumBytes, List.map_cons, List.map_nil, List.sum_cons,
          List.sum_nil, List.length_reverse, List.length_cons, List.length_nil]
        omega
      | cons d t' =>
        rw [rustLinesAux_nl_cons, hstrip]
        have ht : containsB (d :: t') ['\r', '\n'] = false := containsB_cons_shift hno
        have hrec := ih ([] : List Char) ht (by simp)
        simp only [sumBytes, List.map_cons, List.sum_cons, List.length_reverse,
          List.length_cons, List.length_nil] at hrec ⊢
        omega
    · rw [rustLinesAux_other cur c t hc]
      have ht : containsB t ['\r', '\n'] = false := containsB_cons_shift hno
      have hinv2 : (c :: cur).head? = some '\r' → t.head? ≠ some '\n' := by
        intro hh habs
        simp at hh
        exact crlf_head hno ⟨hh, habs⟩
      have hrec := ih (c :: cur) ht hinv2
      simp only [List.length_cons] at hrec ⊢
      omega

theorem sumBytes_rustLines_ge (s : List Char)
    (hno : containsB s ['\r', '\n'] = false) :
    s.length ≤ sumBytes (rustLines s) := by
  cases s with
  | nil => simp [rustLines]
  | cons c t =>
    have := sumBytes_aux_ge (c :: t) [] hno (by simp)
    simpa [rustLines] using this

/-- C8 (amended): the reader's position never decreases, a second read of an
unchanged missing file returns nothing, and a second read of unchanged
content returns nothing provided the unread content has no `\r\n` line
endings (the code strips `\r\n` to yield the line but advances the position
by `len + 1` only, so CRLF content undercounts — see the counterexample). -/
theorem read_monotone_idempotent (d : List Char → Option ReadEvent) :
    (∀ file st, st.position ≤ (readNewEvents d file st).2.position) ∧
    (∀ st, (readNewEvents d none ((readNewEvents d none st).2)).1 = []) ∧
    (∀ content st, containsB (content.drop st.position) ['\r', '\n'] = false →
      (readNewEvents d (some content) ((readNewEvents d (some content) st).2)).1 = []) := by
  refine ⟨?_, fun st => rfl, ?_⟩
  · intro file st
    cases file with
    | none => exact Nat.le_refl _
    | some content =>
      show st.position ≤
        (processLines d (rustLines (content.drop st.position)) st.position).2
      rw [processLines_spec]
      exact Nat.le_add_right _ _
  · intro content st hno
    have h1 : (readNewEvents d (some content) st).2.position =
        st.position + sumBytes (rustLines (content.drop st.position)) := by
      show (processLines d (rustLines (content.drop st.position)) st.position).2 = _
      rw [processLines_spec]
    have hge := sumBytes_rustLines_ge _ hno
    have hlen : (content.drop st.position).length = content.length - st.position := by
      simp
    have hdone : content.length ≤
        (readNewEvents d (some content) st).2.position := by
      rw [h1]
      omega
    show (processLines d (rustLines (content.drop
        (readNewEvents d (some content) st).2.position))
        (readNewEvents d (some content) st).2.position).1 = []
    rw [List.drop_eq_nil_of_le hdone]
    rfl

def c8_lf_content : List Char :=
  "\x7b\"topic\":\"a\",\"ts\":\"b\"\x7d\n\x7b\"topic\":\"c\",\"ts\":\"d\"\x7d\n".data

/-- Witness for the amended C8 on LF-terminated content. -/
theorem read_monotone_idempotent_witness :
    (readNewEvents decodeEventLine (some c8_lf_content)
        ((readNewEvents decodeEventLine (some c8_lf_content) ⟨0⟩).2)).1 = [] ∧
    (⟨0⟩ : ReaderState).position ≤
      (readNewEvents decodeEventLine (some c8_lf_content) ⟨0⟩).2.position := by
  have H := read_monotone_idempotent decodeEventLine
  exact ⟨H.2.2 c8_lf_content ⟨0⟩ (by decide), H.1 (some c8_lf_content) ⟨0⟩⟩

def c8_crlf_content : List Char :=
  (List.replicate 23 "x\r\n".data).flatten ++
    "\x7b\"topic\":\"a\",\"ts\":\"b\"\x7d\r\n".data

/-- C8 counterexample: on a CRLF-terminated log whose last line is a valid
event, the first read visits every line but advances the position by one
byte per line too few (the stripped `\r`s), so an immediately repeated read
with unchanged content re-reads and returns the last event again instead of
returning the empty list. -/
theorem read_crlf_counterexample :
    (readNewEvents decodeEventLine (some c8_crlf_content)
        ((readNewEvents decodeEventLine (some c8_crlf_content) ⟨0⟩).2)).1 =
      [⟨"a", none, "b"⟩] := by
  decide

/-! ### The event parser (`ralph-core/src/event_parser.rs`) -/

def evOpen : List Char := "<event ".data

def evClose : List Char := "</event>".data

def topicPat : List Char := "topic=\"".data

def targetPat : List Char := "target=\"".data

/-- `EventParser::extract_attr`: find `attr="`, then take up to the next
quote. `pat` is the full `attr="` pattern. -/
def extractAttr (tag : List Char) (pat : List Char) : Option (List Char) :=
  match findSub tag pat with
  | none => none
  | some start =>
    let rest := tag.drop (start + pat.length)
    match findSub rest ['"'] with
    | none => none
    | some e => some (rest.take e)

/-- The scanning loop of `EventParser::parse`. `fuel` bounds the number of
iterations; every iteration strictly shrinks `remaining`, so any fuel above
the length is enough (`parseGo_fuel`). The drop offsets are exactly the
code's slice offsets (7 = `"<event ".len()`, 8 = `"</event>".len()`). -/
def parseGo (src : Option String) : Nat → List Char → List Event
  | 0, _ => []
  | fuel + 1, remaining =>
    match findSub remaining evOpen with
    | none => []
    | some start_idx =>
      let after_start := remaining.drop start_idx
      match findSub after_start ['>'] with
      | none => parseGo src fuel (remaining.drop (start_idx + 7))
      | some tag_end =>
        let opening_tag := after_start.take (tag_end + 1)
        match extractAttr opening_tag topicPat with
        | none => parseGo src fuel (remaining.drop (start_idx + tag_end + 1))
        | some topicV =>
          let content_start := after_start.drop (tag_end + 1)
          match findSub content_start evClose with
          | none => parseGo src fuel (remaining.drop (start_idx + tag_end + 1))
          | some close_idx =>
            let payload := trimList (content_start.take close_idx)
            let ev : Event := ⟨⟨topicV⟩, ⟨payload⟩, src,
              (extractAttr opening_tag targetPat).map fun v => (⟨v⟩ : String)⟩
            ev :: parseGo src fuel
              (remaining.drop (start_idx + tag_end + 1 + close_idx + 8))

/-- `EventParser::parse` (with the parser's configured source hat). -/
def parseEvents (src : Option String) (output : String) : List Event :=
  parseGo src (output.data.length + 1) output.data

theorem isPrefB_ne_nil {c : Char} {p l : List Char}
    (h : isPrefB (c :: p) l = true) : l ≠ [] := by
  cases l with
  | nil => simp [isPrefB] at h
  | cons _ _ => simp

theorem findSub_evOpen_ne_nil {s : List Char} {i : Nat}
    (h : findSub s evOpen = some i) : s ≠ [] := by
  have h1 := (findSub_some h).1
  have h2 : s.drop i ≠ [] := isPrefB_ne_nil (p := "event ".data) h1
  intro hnil
  subst hnil
  simp at h2

theorem parseGo_nil (src : Option String) (f : Nat) : parseGo src f [] = [] := by
  cases f with
  | zero => rfl
  | succ f' =>
    have h : findSub ([] : List Char) evOpen = none := by decide
    simp [parseGo, h]

theorem parseGo_fuel (src : Option String) : ∀ (n f g : Nat) (s : List Char),
    s.length ≤ n → s.length < f → s.length < g →
    parseGo src f s = parseGo src g s := by
  intro n
  induction n with
  | zero =>
    intro f g s hn hf hg
    have hs : s = [] := List.eq_nil_of_length_eq_zero (by omega)
    subst hs
    rw [parseGo_nil, parseGo_nil]
  | succ n ih =>
    intro f g s hn hf hg
    cases f with
    | zero => omega
    | succ f' =>
      cases g with
      | zero => omega
      | succ g' =>
        show (match findSub s evOpen with
          | none => []
          | some start_idx => _) = (match findSub s evOpen with
          | none => []
          | some start_idx => _)
        cases hfind : findSub s evOpen with
        | none => rfl
        | some i =>
          have hne : s ≠ [] := findSub_evOpen_ne_nil hfind
          have hpos : 0 < s.length := List.length_pos.mpr hne
          simp only
          cases hgt : findSub (s.drop i) ['>'] with
          | none =>
            apply ih
            · simp; omega
            · simp; omega
            · simp; omega
          | some j =>
            simp only
            cases htp : extractAttr ((s.drop i).take (j + 1)) topicPat with
            | none =>
              apply ih
              · simp; omega
              · simp; omega
              · simp; omega
            | some tv =>
              simp only
              cases hcl : findSub ((s.drop i).drop (j + 1)) evClose with
              | none =>
                apply ih
                · simp; omega
                · simp; omega
                · simp; omega
              | some ci =>
                simp only
                congr 1
                apply ih
                · simp; omega
                · simp; omega
                · simp; omega

theorem parseGo_succ_noGt (src : Option String) (f : Nat) (s : List Char) (i : Nat)
    (h1 : findSub s evOpen = some i)
    (h2 : findSub (s.drop i) ['>'] = none) :
    parseGo src (f + 1) s = parseGo src f (s.drop (i + 7)) := by
  simp only [parseGo, h1, h2]

theorem parseGo_succ_noTopic (src : Option String) (f : Nat) (s : List Char) (i j : Nat)
    (h1 : findSub s evOpen = some i)
    (h2 : findSub (s.drop i) ['>'] = some j)
    (h3 : extractAttr ((s.drop i).take (j + 1)) topicPat = none) :
    parseGo src (f + 1) s = parseGo src f (s.drop (i + j + 1)) := by
  simp only [parseGo, h1, h2, h3]

theorem parseGo_succ_noClose (src : Option String) (f : Nat) (s : List Char)
    (i j : Nat) (tv : List Char)
    (h1 : findSub s evOpen = some i)
    (h2 : findSub (s.drop i) ['>'] = some j)
    (h3 : extractAttr ((s.drop i).take (j + 1)) topicPat = some tv)
    (h4 : findSub ((s.drop i).drop (j + 1)) evClose = none) :
    parseGo src (f + 1) s = parseGo src f (s.drop (i + j + 1)) := by
  simp only [parseGo, h1, h2, h3, h4]

theorem parseGo_succ_event (src : Option String) (f : Nat) (s : List Char)
    (i j ci : Nat) (tv : List Char)
    (h1 : findSub s evOpen = some i)
    (h2 : findSub (s.drop i) ['>'] = some j)
    (h3 : extractAttr ((s.drop i).take (j + 1)) topicPat = some tv)
    (h4 : findSub ((s.drop i).drop (j + 1)) evClose = some ci) :
    parseGo src (f + 1) s =
      (⟨⟨tv⟩, ⟨trimList (((s.drop i).drop (j + 1)).take ci)⟩, src,
        (extractAttr ((s.drop i).take (j + 1)) targetPat).map
          fun v => (⟨v⟩ : String)⟩ : Event) ::
        parseGo src f (s.drop (i + j + 1 + ci + 8)) := by
  simp only [parseGo, h1, h2, h3, h4]

/-! ### Claim C6: the parser is total and skips malformed tags -/

/-- C6: `parse` is a total function (the embedding needs no partiality and
every slice offset is in range), and each malformed-tag case skips exactly as
specified: a `<event ` with no later `>` resumes just past the `<event `
token; an opening tag without a `topic` attribute, or without a later
`</event>`, resumes just after the opening tag. In each case no event is
emitted for the malformed tag and the tail is parsed as usual. -/
theorem parse_skip_malformed (src : Option String) (s : String) :
    (∀ i, findSub s.data evOpen = some i →
      findSub (s.data.drop i) ['>'] = none →
      parseEvents src s = parseEvents src ⟨s.data.drop (i + 7)⟩) ∧
    (∀ i j, findSub s.data evOpen = some i →
      findSub (s.data.drop i) ['>'] = some j →
      extractAttr ((s.data.drop i).take (j + 1)) topicPat = none →
      parseEvents src s = parseEvents src ⟨s.data.drop (i + j + 1)⟩) ∧
    (∀ i j tv, findSub s.data evOpen = some i →
      findSub (s.data.drop i) ['>'] = some j →
      extractAttr ((s.data.drop i).take (j + 1)) topicPat = some tv →
      findSub ((s.data.drop i).drop (j + 1)) evClose = none →
      parseEvents src s = parseEvents src ⟨s.data.drop (i + j + 1)⟩) := by
  refine ⟨?_, ?_, ?_⟩
  · intro i h1 h2
    have hpos : 0 < s.data.length := List.length_pos.mpr (findSub_evOpen_ne_nil h1)
    show parseGo src (s.data.length + 1) s.data = parseGo src _ (s.data.drop (i + 7))
    rw [parseGo_succ_noGt src s.data.length s.data i h1 h2]
    apply parseGo_fuel src s.data.length
    · simp
    · rw [List.length_drop]
      omega
    · simp
  · intro i j h1 h2 h3
    have hpos : 0 < s.data.length := List.length_pos.mpr (findSub_evOpen_ne_nil h1)
    show parseGo src (s.data.length + 1) s.data = parseGo src _ (s.data.drop (i + j + 1))
    rw [parseGo_succ_noTopic src s.data.length s.data i j h1 h2 h3]
    apply parseGo_fuel src s.data.length
    · simp
    · rw [List.length_drop]
      omega
    · simp
  · intro i j tv h1 h2 h3 h4
    have hpos : 0 < s.data.length := List.length_pos.mpr (findSub_evOpen_ne_nil h1)
    show parseGo src (s.data.length + 1) s.data = parseGo src _ (s.data.drop (i + j + 1))
    rw [parseGo_succ_noClose src s.data.length s.data i j tv h1 h2 h3 h4]
    apply parseGo_fuel src s.data.length
    · simp
    · rw [List.length_drop]
      omega
    · simp

/-- Witness for C6 on three concrete malformed outputs: `<event x` (no `>`),
`<event x>abc` (no topic attribute), `<event topic="a">abc` (no closer). -/
theorem parse_skip_malformed_witness :
    parseEvents none "<event x" = parseEvents none ⟨"<event x".data.drop 7⟩ ∧
    parseEvents none "<event x>abc" = parseEvents none ⟨"<event x>abc".data.drop 9⟩ ∧
    parseEvents none "<event topic=\"a\">abc" =
      parseEvents none ⟨"<event topic=\"a\">abc".data.drop 17⟩ := by
  refine ⟨?_, ?_, ?_⟩
  · exact (parse_skip_malformed none "<event x").1 0 (by decide) (by decide)
  · exact (parse_skip_malformed none "<event x>abc").2.1 0 8 (by decide) (by decide)
      (by decide)
  · exact (parse_skip_malformed none "<event topic=\"a\">abc").2.2 0 16 "a".data
      (by decide) (by decide) (by decide) (by decide)

/-! ### Claim C5: render/parse round trip -/

/-- The rendering of a directed event tag used by the round-trip property. -/
def renderEventTag (topic target payload : String) : String :=
  "<event topic=\"" ++ topic ++ "\" target=\"" ++ target ++ "\">" ++ payload ++
    "</event>"

/-- `l` ends with `p`. -/
def endsWith (l p : List Char) : Bool := isPrefB p.reverse l.reverse

theorem endsWith_iff {l p : List Char} : endsWith l p = true ↔ ∃ u, u ++ p = l := by
  unfold endsWith
  rw [isPrefB_iff_ex]
  constructor
  · rintro ⟨t, ht⟩
    refine ⟨t.reverse, ?_⟩
    have := congrArg List.reverse ht
    simpa using this
  · rintro ⟨u, rfl⟩
    exact ⟨u.reverse, by simp⟩

theorem isPrefB_false_of_get {p s : List Char} (k : Nat) (hk : k < p.length)
    (hne : s[k]? ≠ p[k]?) : isPrefB p s = false := by
  cases h : isPrefB p s with
  | false => rfl
  | true => exact absurd ((isPrefB_iff_get.mp h).2 k hk) hne

theorem isPrefB_single_iff {c : Char} {l : List Char} :
    isPrefB [c] l = true ↔ l[0]? = some c := by
  rw [isPrefB_iff_get]
  constructor
  · rintro ⟨hl, hg⟩
    have := hg 0 (by simp)
    simpa using this
  · intro h
    refine ⟨?_, ?_⟩
    · cases l with
      | nil => simp at h
      | cons _ _ => simp
    · intro k hk
      simp only [List.length_singleton] at hk
      have hk0 : k = 0 := by omega
      subst hk0
      simpa using h

/-- First occurrence of a character after a character-free prefix. -/
theorem findSub_char_of (a : List Char) (c : Char) (r : List Char) (h : c ∉ a) :
    findSub (a ++ c :: r) [c] = some a.length := by
  apply findSub_eq_of_first
  · rw [List.drop_left]
    simp [isPrefB]
  · intro j hj
    apply isPrefB_false_of_get 0 (by simp)
    intro habs
    rw [List.getElem?_drop, Nat.add_zero, List.getElem?_append] at habs
    rw [if_pos hj] at habs
    simp only [List.getElem?_cons_zero] at habs
    exact h (List.getElem?_mem habs)

/-- First occurrence of a pattern whose head character occurs nowhere else in
the pattern, when the text is occurrence-free before the pattern. -/
theorem findSub_pat_boundary (a pat : List Char) (hne : pat ≠ [])
    (hno : containsB a pat = false)
    (hhead : ∀ k, 0 < k → k < pat.length → pat[k]? ≠ pat[0]?) :
    findSub (a ++ pat) pat = some a.length := by
  apply findSub_eq_of_first
  · rw [List.drop_left]
    exact isPrefB_refl pat
  · intro j hj
    cases hocc : isPrefB pat ((a ++ pat).drop j) with
    | false => rfl
    | true =>
      exfalso
      have hget := isPrefB_drop_get hocc
      have hplen : 0 < pat.length := List.length_pos.mpr hne
      by_cases hfit : j + pat.length ≤ a.length
      · have : isPrefB pat (a.drop j) = true := by
          rw [isPrefB_iff_get]
          refine ⟨by simp; omega, ?_⟩
          intro k hk
          rw [List.getElem?_drop]
          have := hget k hk
          rw [List.getElem?_append] at this
          simpa [show j + k < a.length by omega] using this
        rw [containsB_of_at j this] at hno
        exact absurd hno (by simp)
      · have hk0 : 0 < a.length - j ∧ a.length - j < pat.length := by omega
        have h1 := hget (a.length - j) hk0.2
        rw [show j + (a.length - j) = a.length by omega] at h1
        have h2 : (a ++ pat)[a.length]? = pat[0]? := by
          rw [List.getElem?_append]
          simp
        rw [h2] at h1
        exact hhead (a.length - j) hk0.1 hk0.2 h1.symm

def renderPre : List Char := "<event topic=\"".data

def renderMid : List Char := "\" target=\"".data

theorem getElem_append_first {u v : List Char} {m : Nat} (hm : m < u.length) :
    (u ++ v)[m]? = u[m]? := by
  rw [List.getElem?_append, if_pos hm]

theorem getElem_append_second {u v : List Char} {m : Nat} (hm : u.length ≤ m) :
    (u ++ v)[m]? = v[m - u.length]? := by
  rw [List.getElem?_append, if_neg (by omega)]

/-- Round-trip of `parse` over a rendered event tag, at the char-list level. -/
theorem parseGo_render (src : Option String) (t x p : List Char)
    (hTq : '"' ∉ t) (hXq : '"' ∉ x)
    (hTg : '>' ∉ t) (hXg : '>' ∉ x)
    (hTt : endsWith t "target=".data = false)
    (hPc : containsB p evClose = false) :
    ∀ f, (renderPre ++ t ++ renderMid ++ x ++ "\">".data ++ p ++ evClose).length < f →
    parseGo src f (renderPre ++ t ++ renderMid ++ x ++ "\">".data ++ p ++ evClose) =
      [⟨⟨t⟩, ⟨trimList p⟩, src, some ⟨x⟩⟩] := by
  intro f hf
  set s : List Char :=
    renderPre ++ t ++ renderMid ++ x ++ "\">".data ++ p ++ evClose with hs
  set A : List Char := renderPre ++ t ++ renderMid ++ x ++ ['"'] with hA
  set lt := t.length with hlt
  set lx := x.length with hlx
  -- shapes of the rendered string
  have hshape : s = A ++ '>' :: (p ++ evClose) := by
    rw [hs, hA]
    simp [List.append_assoc]
  have hopening : s.take (A.length + 1) = A ++ ['>'] := by
    rw [hshape]
    simp [List.take_append]
  set opening : List Char := A ++ ['>'] with hopening_def
  have hshape_r : opening = renderPre ++ (t ++ (renderMid ++ (x ++ ['"', '>']))) := by
    rw [hopening_def, hA]
    simp [List.append_assoc]
  have hlenA : A.length = 25 + lt + lx := by
    rw [hA]
    simp [renderPre, renderMid]
    omega
  -- region reads of the opening tag
  have hfirst : ∀ m, m < 14 → opening[m]? = renderPre[m]? := by
    intro m hm
    rw [hshape_r]
    exact getElem_append_first (by simp [renderPre]; omega)
  have htreg : ∀ m, 14 ≤ m → m < 14 + lt → opening[m]? = t[m - 14]? := by
    intro m hm1 hm2
    rw [hshape_r, getElem_append_second (by simp [renderPre]; omega),
      getElem_append_first (by simp [renderPre]; omega)]
    have h14 : renderPre.length = 14 := by decide
    rw [h14]
  have hmidreg : ∀ m, 14 + lt ≤ m → m < 24 + lt → opening[m]? = renderMid[m - (14 + lt)]? := by
    intro m hm1 hm2
    rw [hshape_r, getElem_append_second (by simp [renderPre]; omega),
      getElem_append_second (by simp [renderPre]; omega),
      getElem_append_first (by simp [renderMid, renderPre]; omega)]
    have h14 : renderPre.length = 14 := by decide
    rw [h14]
    congr 1
    omega
  -- step 1: the scan finds `<event ` at index 0
  have hopen : findSub s evOpen = some 0 := by
    apply findSub_eq_of_first
    · rw [List.drop_zero]
      have hdec : s = evOpen ++ (topicPat ++ t ++ renderMid ++ x ++ "\">".data ++ p ++ evClose) := by
        rw [hs]
        have : renderPre = evOpen ++ topicPat := by decide
        rw [this]
        simp [List.append_assoc]
      rw [hdec]
      exact isPrefB_self_append _ _
    · intro j hj
      omega
  -- step 2: the first `>` closes the opening tag
  have hgt : findSub s ['>'] = some A.length := by
    rw [hshape]
    apply findSub_char_of
    rw [hA]
    simp only [List.mem_append, List.mem_singleton]
    push_neg
    refine ⟨⟨⟨⟨?_, ?_⟩, ?_⟩, ?_⟩, ?_⟩
    · decide
    · exact fun h => hTg h
    · decide
    · exact fun h => hXg h
    · decide
  -- step 3: the topic attribute is extracted
  have hfa : findSub opening topicPat = some 7 := by
    apply findSub_eq_of_first
    · have hdec : opening = evOpen ++ (topicPat ++ (t ++ (renderMid ++ (x ++ ['"', '>'])))) := by
        rw [hshape_r]
        have : renderPre = evOpen ++ topicPat := by decide
        rw [this]
        simp [List.append_assoc]
      rw [hdec, show (7 : Nat) = evOpen.length from by decide, List.drop_left]
      exact isPrefB_self_append _ _
    · intro j hj
      interval_cases j
      case _ =>
        apply isPrefB_false_of_get 0 (by decide)
        rw [List.getElem?_drop, Nat.add_zero, hfirst 0 (by omega)]
        decide
      case _ =>
        apply isPrefB_false_of_get 0 (by decide)
        rw [List.getElem?_drop, Nat.add_zero, hfirst 1 (by omega)]
        decide
      case _ =>
        apply isPrefB_false_of_get 0 (by decide)
        rw [List.getElem?_drop, Nat.add_zero, hfirst 2 (by omega)]
        decide
      case _ =>
        apply isPrefB_false_of_get 0 (by decide)
        rw [List.getElem?_drop, Nat.add_zero, hfirst 3 (by omega)]
        decide
      case _ =>
        apply isPrefB_false_of_get 0 (by decide)
        rw [List.getElem?_drop, Nat.add_zero, hfirst 4 (by omega)]
        decide
      case _ =>
        apply isPrefB_false_of_get 1 (by decide)
        rw [List.getElem?_drop, hfirst 6 (by omega)]
        decide
      case _ =>
        apply isPrefB_false_of_get 0 (by decide)
        rw [List.getElem?_drop, Nat.add_zero, hfirst 6 (by omega)]
        decide
  have hrest14 : opening.drop (7 + topicPat.length) = t ++ (renderMid ++ (x ++ ['"', '>'])) := by
    rw [hshape_r, show 7 + topicPat.length = renderPre.length from by decide, List.drop_left]
  have hrest14q : findSub (t ++ (renderMid ++ (x ++ ['"', '>']))) ['"'] = some lt := by
    have hm : renderMid ++ (x ++ ['"', '>']) = '"' :: (" target=\"".data ++ x ++ ['"', '>']) := by
      have : renderMid = '"' :: " target=\"".data := by decide
      rw [this]
      simp [List.append_assoc]
    rw [hm]
    exact findSub_char_of t '"' _ hTq
  have htopic : extractAttr opening topicPat = some t := by
    unfold extractAttr
    rw [hfa]
    simp only
    rw [hrest14, hrest14q]
    simp only
    rw [hlt, List.take_left]
  -- step 4: the target attribute is extracted
  set A2 : List Char := renderPre ++ t ++ ['"', ' '] with hA2
  have hlenA2 : A2.length = 16 + lt := by
    rw [hA2]
    simp [renderPre]
    omega
  have hshape5 : opening = A2 ++ (targetPat ++ (x ++ ['"', '>'])) := by
    rw [hshape_r, hA2]
    have hmid2 : renderMid = ['"', ' '] ++ targetPat := by decide
    rw [hmid2]
    simp [List.append_assoc]
  have hfat : findSub opening targetPat = some A2.length := by
    apply findSub_eq_of_first
    · rw [hshape5, List.drop_left]
      exact isPrefB_self_append _ _
    · intro j hj
      cases hocc : isPrefB targetPat (opening.drop j) with
      | false => rfl
      | true =>
        exfalso
        have hget := isPrefB_drop_get hocc
        have h7 : opening[j + 7]? = some '"' := by
          have h := hget 7 (by decide)
          rw [h]
          decide
        have hquote : j + 7 = 13 ∨ j + 7 = 14 + lt := by
          rw [hlenA2] at hj
          by_cases hc1 : j + 7 < 14
          · left
            rw [hfirst (j + 7) hc1] at h7
            have hdq : ∀ m, m < 14 → renderPre[m]? = some '"' → m = 13 := by decide
            exact hdq (j + 7) hc1 h7
          · by_cases hc2 : j + 7 < 14 + lt
            · exfalso
              rw [htreg (j + 7) (by omega) hc2] at h7
              exact hTq (List.getElem?_mem h7)
            · right
              rw [hmidreg (j + 7) (by omega) (by omega)] at h7
              have hdm : ∀ r, r < 9 → renderMid[r]? = some '"' → r = 0 := by decide
              have hr := hdm (j + 7 - (14 + lt)) (by omega) h7
              omega
        rcases hquote with h13 | h14lt
        · have h0 := hget 0 (by decide)
          rw [show j + 0 = 6 by omega] at h0
          rw [hfirst 6 (by omega)] at h0
          exact absurd h0 (by decide)
        · by_cases hlt7 : 7 ≤ lt
          · have h8 : targetPat.length = 8 := by decide
            have hdropt : t.drop (lt - 7) = "target=".data := by
              apply List.ext_getElem?
              intro n
              by_cases hn : n < 7
              · rw [List.getElem?_drop]
                have h1 : t[lt - 7 + n]? = opening[14 + (lt - 7 + n)]? := by
                  rw [htreg (14 + (lt - 7 + n)) (by omega) (by omega)]
                  congr 1
                  omega
                rw [h1, show 14 + (lt - 7 + n) = j + n by omega, hget n (by omega)]
                have hcmp : ∀ m, m < 7 → targetPat[m]? = "target=".data[m]? := by decide
                exact hcmp n hn
              · rw [List.getElem?_eq_none, List.getElem?_eq_none]
                · have : ("target=".data).length = 7 := by decide
                  omega
                · simp
                  omega
            have hew : endsWith t "target=".data = true := by
              rw [endsWith_iff]
              refine ⟨t.take (lt - 7), ?_⟩
              conv_rhs => rw [← List.take_append_drop (lt - 7) t]
              rw [hdropt]
            rw [hew] at hTt
            exact absurd hTt (by simp)
          · have h8 : targetPat.length = 8 := by decide
            have hk := hget (6 - lt) (by omega)
            rw [show j + (6 - lt) = 13 by omega] at hk
            rw [hfirst 13 (by omega)] at hk
            have hpq : renderPre[13]? = some '"' := by decide
            rw [hpq] at hk
            have hnq : ∀ k, k < 7 → targetPat[k]? ≠ some '"' := by decide
            exact hnq (6 - lt) (by omega) hk.symm
  have hdropA2 : opening.drop (A2.length + targetPat.length) = x ++ ['"', '>'] := by
    rw [hshape5, ← List.append_assoc,
      show A2.length + targetPat.length = (A2 ++ targetPat).length by simp,
      List.drop_left]
  have hfx : findSub (x ++ ['"', '>']) ['"'] = some lx := by
    exact findSub_char_of x '"' ['>'] hXq
  have htarget : extractAttr opening targetPat = some x := by
    unfold extractAttr
    rw [hfat]
    simp only
    rw [hdropA2, hfx]
    simp only
    rw [hlx, List.take_left]
  -- step 5: the payload runs to the first closing tag
  have hdropA1 : s.drop (A.length + 1) = p ++ evClose := by
    have hsh : s = (A ++ ['>']) ++ (p ++ evClose) := by
      rw [hshape]
      simp
    rw [hsh, show A.length + 1 = (A ++ ['>']).length by simp, List.drop_left]
  have hclose : findSub (p ++ evClose) evClose = some p.length := by
    apply findSub_pat_boundary p evClose (by decide) hPc
    intro k hk1 hk2
    have h8 : evClose.length = 8 := by decide
    have hd : ∀ m, m < 8 → 0 < m → evClose[m]? ≠ evClose[0]? := by decide
    exact hd k (by omega) hk1
  -- assemble the single parsed event
  cases f with
  | zero => exact absurd hf (by omega)
  | succ fp =>
    have h2s : findSub (s.drop 0) ['>'] = some A.length := by
      rw [List.drop_zero]
      exact hgt
    have h3s : extractAttr ((s.drop 0).take (A.length + 1)) topicPat = some t := by
      rw [List.drop_zero, hopening]
      exact htopic
    have h4s : findSub ((s.drop 0).drop (A.length + 1)) evClose = some p.length := by
      rw [List.drop_zero, hdropA1]
      exact hclose
    rw [parseGo_succ_event src fp s 0 A.length p.length t hopen h2s h3s h4s]
    have hev : ((s.drop 0).drop (A.length + 1)).take p.length = p := by
      rw [List.drop_zero, hdropA1, List.take_left]
    have htg : extractAttr ((s.drop 0).take (A.length + 1)) targetPat = some x := by
      rw [List.drop_zero, hopening]
      exact htarget
    have h8 : evClose.length = 8 := by decide
    have hslen : s.length = A.length + 1 + p.length + 8 := by
      rw [hshape]
      simp
      omega
    have htail : s.drop (0 + A.length + 1 + p.length + 8) = [] := by
      apply List.drop_eq_nil_of_le
      omega
    rw [hev, htg, htail, parseGo_nil]
    rfl

/-- C5 counterexample: the event with topic `a>b`, target `x`, payload `p`
meets every precondition of the claim (non-empty topic and target, no double
quotes, payload free of `</event>` and `<event `), yet parsing the rendered
tag yields no event at all: the `>` inside the topic ends the opening tag
early, the topic attribute has no closing quote inside it, and the tag is
skipped. -/
theorem parse_render_counterexample :
    ("a>b" : String).data ≠ [] ∧ ("x" : String).data ≠ [] ∧
    '"' ∉ ("a>b" : String).data ∧ '"' ∉ ("x" : String).data ∧
    containsB ("p" : String).data evClose = false ∧
    containsB ("p" : String).data evOpen = false ∧
    parseEvents none (renderEventTag "a>b" "x" "p") = [] ∧
    ([] : List Event) ≠ [⟨"a>b", "p", none, some "x"⟩] := by
  decide

/-- C5 (amended): for a parser configured with source `src`, rendering and
re-parsing an event with topic `T`, target `X` and payload `P` yields exactly
that one event with the payload trimmed, provided additionally that `T` and
`X` contain no `>` character and `T` does not end with the seven characters
`target=` (either situation corrupts the literal-string attribute scan, as
the counterexample shows for `>`). -/
theorem parse_render_roundtrip (src : Option String) (T X P : String)
    (_hT : T.data ≠ []) (_hX : X.data ≠ [])
    (hTq : '"' ∉ T.data) (hXq : '"' ∉ X.data)
    (hTg : '>' ∉ T.data) (hXg : '>' ∉ X.data)
    (hTt : endsWith T.data "target=".data = false)
    (hPc : containsB P.data evClose = false)
    (_hPo : containsB P.data evOpen = false) :
    parseEvents src (renderEventTag T X P) =
      [⟨T, ⟨trimList P.data⟩, src, some X⟩] := by
  have hdata : (renderEventTag T X P).data =
      renderPre ++ T.data ++ renderMid ++ X.data ++ "\">".data ++ P.data ++ evClose := by
    simp [renderEventTag, String.data_append, renderPre, renderMid, evClose]
  unfold parseEvents
  rw [hdata]
  exact parseGo_render src T.data X.data P.data hTq hXq hTg hXg hTt hPc _ (by omega)

/-- Witness for the amended C5 at a concrete directed event. -/
theorem parse_render_roundtrip_witness :
    parseEvents (some "impl") (renderEventTag "impl.done" "reviewer" " ok done ") =
      [⟨"impl.done", ⟨trimList " ok done ".data⟩, some "impl", some "reviewer"⟩] := by
  exact parse_render_roundtrip (some "impl") "impl.done" "reviewer" " ok done "
    (by decide) (by decide) (by decide) (by decide) (by decide) (by decide)
    (by decide) (by decide) (by decide)

/-! ### The coordinator prompt builder (`ralph-core/src/hatless_ralph.rs`)

The scratchpad file's existence (the only file-system read) is an explicit
boolean parameter. -/

/-- Modelled from the spec: the `core:` configuration block (scratchpad path,
specs dir, guardrail strings); `CoreConfig` itself is not among the sources
(the `config.rs` present in src predates it), but `hatless_ralph.rs` reads
exactly these three fields. -/
structure CoreConfig where
  scratchpad : String
  specs_dir : String
  guardrails : List String

/-- Per-hat prompt info (`HatInfo` in `hatless_ralph.rs`). -/
structure HatInfo where
  name : String
  subscribes_to : List String
  publishes : List String
  instructions : String

/-- The coordinator (`HatlessRalph`): its topology is `none` exactly when the
registry is empty (see `HatlessRalph::new`). -/
structure HatlessRalph where
  completion_promise : String
  core : CoreConfig
  hat_topology : Option (List HatInfo)
  starting_event : Option String

def joinSep (sep : String) : List String → String
  | [] => ""
  | [x0] => x0
  | x0 :: x1 :: xs => x0 ++ sep ++ joinSep sep (x1 :: xs)

def numberGuardrails (gs : List String) : String :=
  joinSep "\n" (gs.enum.map fun ig => toString (999 + ig.1) ++ ". " ++ ig.2)

def corePrompt (r : HatlessRalph) : String :=
  "I\x27m Ralph. Fresh context each iteration.\n\n### 0a. ORIENTATION\nStudy `"
    ++ r.core.specs_dir ++
    "` to understand requirements.\nDon\x27t assume features aren\x27t implemented—search first.\n\n### 0b. SCRATCHPAD\nStudy `"
    ++ r.core.scratchpad ++
    "`. It\x27s shared state. It\x27s memory.\n\nTask markers:\n- `[ ]` pending\n- `[x]` done\n- `[~]` cancelled (with reason)\n\n### GUARDRAILS\n"
    ++ numberGuardrails r.core.guardrails ++ "\n\n"

/-- `HatlessRalph::is_fresh_start`: a starting event is configured and the
scratchpad file does not exist. -/
def isFreshStart (r : HatlessRalph) (scratchpadExists : Bool) : Bool :=
  r.starting_event.isSome && !scratchpadExists

/-- `HatlessRalph::workflow_section`: fast path, coordinate-and-delegate, or
the solo workflow. -/
def workflowSection (r : HatlessRalph) (scratchpadExists : Bool) : String :=
  if r.hat_topology.isSome then
    if isFreshStart r scratchpadExists then
      "## WORKFLOW\n\n**FAST PATH**: Publish `" ++ r.starting_event.getD "" ++
        "` immediately to start the hat workflow.\nDo not plan or analyze — delegate now.\n\n"
    else
      "## WORKFLOW\n\n### 1. PLAN\nUpdate `" ++ r.core.scratchpad ++
        "` with prioritized tasks.\n\n### 2. DELEGATE\nPublish ONE event to hand off to specialized hats.\n\n**CRITICAL: STOP after publishing the event.** A new iteration will start\nwith fresh context to handle the work. Do NOT continue working in this\niteration — let the next iteration handle the event with the appropriate\nhat persona.\n\n"
  else
    "## WORKFLOW\n\n### 1. Study the prompt. \nStudy, explore, and research what needs to be done. Use parallel subagents (up to 10) for searches.\n\n### 2. PLAN\nUpdate `"
      ++ r.core.scratchpad ++
      "` with prioritized tasks.\n\n### 3. IMPLEMENT\nPick ONE task. Only 1 subagent for build/tests.\n\n### 4. COMMIT\nCapture the why, not just the what. Mark `[x]` in scratchpad.\n\n### 5. REPEAT\nUntil all tasks `[x]` or `[~]`.\n\n"

def hatRow (h : HatInfo) : String :=
  "| " ++ h.name ++ " | " ++ joinSep ", " h.subscribes_to ++ " | " ++
    joinSep ", " h.publishes ++ " |\n"

def hatInstrBlock (h : HatInfo) : String :=
  if (trimList h.instructions.data).isEmpty then ""
  else
    "### " ++ h.name ++ " Instructions\n\n" ++ h.instructions ++
      (if h.instructions.data.getLast? = some '\n' then "" else "\n") ++ "\n"

def hatsSection (r : HatlessRalph) (topo : List HatInfo) : String :=
  "## HATS\n\nDelegate via events.\n\n" ++
    (match r.starting_event with
     | some se => "**After coordination, publish `" ++ se ++ "` to start the workflow.**\n\n"
     | none => "") ++
    "| Hat | Triggers On | Publishes |\n" ++
    "|-----|-------------|----------|\n" ++
    String.join (topo.map hatRow) ++ "\n" ++
    String.join (topo.map hatInstrBlock)

def eventWritingSection : String :=
  "## EVENT WRITING\n\nWrite events to `.agent/events.jsonl` as:\n\x7b\"topic\": \"build.task\", \"payload\": \"...\", \"ts\": \"2026-01-14T12:00:00Z\"\x7d\n\n"

def doneSection (r : HatlessRalph) : String :=
  "## DONE\n\nOutput " ++ r.completion_promise ++ " when all tasks complete.\n"

/-- `HatlessRalph::build_prompt`: pending events (if any, before the
workflow), then the workflow, hats, event-writing and done sections. -/
def buildPrompt (r : HatlessRalph) (scratchpadExists : Bool) (context : String) : String :=
  corePrompt r ++
    (if ¬ (trimList context.data).isEmpty then
      "## PENDING EVENTS\n\n" ++ context ++ "\n\n"
    else "") ++
    workflowSection r scratchpadExists ++
    (match r.hat_topology with
     | some topo => hatsSection r topo
     | none => "") ++
    eventWritingSection ++ doneSection r

def containsStr (s pat : String) : Bool := containsB s.data pat.data

theorem containsStr_append_left (a b p : String) (h : containsStr a p = true) :
    containsStr (a ++ b) p = true := by
  unfold containsStr at h ⊢
  rw [String.data_append]
  exact containsB_append_left _ h

theorem containsStr_append_right (a b p : String) (h : containsStr b p = true) :
    containsStr (a ++ b) p = true := by
  unfold containsStr at h ⊢
  rw [String.data_append]
  exact containsB_append_right _ h

/-! ### Claim C9: the coordinator fast path -/

/-- C9: with a non-empty hat topology and a configured starting event, when
the scratchpad does not exist the coordinator prompt contains `FAST PATH`
and the instruction to publish the starting event immediately, and the
workflow section (the only place a `### 1. PLAN` section is ever emitted)
does not contain `### 1. PLAN`; when the scratchpad exists or no starting
event is configured, the fast-path body is absent from the workflow section.
(The non-containment parts assume the configured free-text strings do not
themselves contain the searched literal.) -/
theorem coordinator_fast_path (r : HatlessRalph) (topo : List HatInfo)
    (se ctx : String) (htopo : r.hat_topology = some topo) :
    (r.starting_event = some se →
      containsStr (buildPrompt r false ctx) "FAST PATH" = true ∧
      containsStr (buildPrompt r false ctx) ("Publish `" ++ se ++ "` immediately") = true ∧
      (containsStr se "### 1. PLAN" = false →
        containsB (workflowSection r false).data "### 1. PLAN".data = false)) ∧
    (∀ scratchpadExists : Bool,
      (r.starting_event = none ∨ scratchpadExists = true) →
      containsStr r.core.scratchpad "FAST PATH" = false →
      containsB (workflowSection r scratchpadExists).data "FAST PATH".data = false) := by
  constructor
  · intro hse
    have hwf : workflowSection r false =
        ("## WORKFLOW\n\n**FAST PATH**: Publish `" ++ se ++
          "` immediately to start the hat workflow.\nDo not plan or analyze — delegate now.\n\n") := by
      unfold workflowSection isFreshStart
      rw [htopo, hse]
      simp
    refine ⟨?_, ?_, ?_⟩
    · unfold buildPrompt
      apply containsStr_append_left
      apply containsStr_append_left
      apply containsStr_append_left
      apply containsStr_append_right
      rw [hwf]
      apply containsStr_append_left
      apply containsStr_append_left
      decide
    · unfold buildPrompt
      apply containsStr_append_left
      apply containsStr_append_left
      apply containsStr_append_left
      apply containsStr_append_right
      rw [hwf]
      unfold containsStr
      rw [String.data_append, String.data_append, String.data_append,
        String.data_append]
      have e1 : ("## WORKFLOW\n\n**FAST PATH**: Publish `" : String).data =
          ("## WORKFLOW\n\n**FAST PATH**: " : String).data ++
            ("Publish `" : String).data := by decide
      have e2 : ("` immediately to start the hat workflow.\nDo not plan or analyze — delegate now.\n\n" : String).data =
          ("` immediately" : String).data ++
            (" to start the hat workflow.\nDo not plan or analyze — delegate now.\n\n" : String).data := by
        decide
      rw [e1, e2]
      have hassoc : (((("## WORKFLOW\n\n**FAST PATH**: " : String).data ++
              ("Publish `" : String).data) ++ se.data) ++
            (("` immediately" : String).data ++
              (" to start the hat workflow.\nDo not plan or analyze — delegate now.\n\n" : String).data)) =
          ("## WORKFLOW\n\n**FAST PATH**: " : String).data ++
            ((("Publish `" : String).data ++ se.data) ++
              (("` immediately" : String).data ++
                (" to start the hat workflow.\nDo not plan or analyze — delegate now.\n\n" : String).data)) := by
        simp [List.append_assoc]
      rw [hassoc]
      apply containsB_append_right
      apply containsB_of_at 0
      rw [List.drop_zero]
      apply isPrefB_iff_ex.mpr
      refine ⟨(" to start the hat workflow.\nDo not plan or analyze — delegate now.\n\n" : String).data, ?_⟩
      simp [List.append_assoc]
    · intro hsafe
      rw [hwf]
      rw [String.data_append, String.data_append]
      apply containsB_append_false_head _ '`'
      · decide
      · decide
      · apply containsB_append_false_last _ '`'
        · decide
        · decide
        · decide
        · exact hsafe
      · decide
  · intro ex hcase hscr
    have hff : isFreshStart r ex = false := by
      unfold isFreshStart
      rcases hcase with hnone | hex
      · rw [hnone]
        rfl
      · rw [hex]
        simp
    have hwp : workflowSection r ex =
        ("## WORKFLOW\n\n### 1. PLAN\nUpdate `" ++ r.core.scratchpad ++
          "` with prioritized tasks.\n\n### 2. DELEGATE\nPublish ONE event to hand off to specialized hats.\n\n**CRITICAL: STOP after publishing the event.** A new iteration will start\nwith fresh context to handle the work. Do NOT continue working in this\niteration — let the next iteration handle the event with the appropriate\nhat persona.\n\n") := by
      unfold workflowSection
      rw [htopo, hff]
      simp
    rw [hwp]
    rw [String.data_append, String.data_append]
    apply containsB_append_false_head _ '`'
    · decide
    · decide
    · apply containsB_append_false_last _ '`'
      · decide
      · decide
      · decide
      · exact hscr
    · decide

def c9_ralph : HatlessRalph :=
  ⟨"LOOP_COMPLETE", ⟨".agent/scratchpad.md", "specs/", []⟩,
    some [⟨"TDD Writer", ["tdd.start"], ["test.written"], ""⟩],
    some "tdd.start"⟩

/-- Witness for C9 at a concrete multi-hat configuration with
`starting_event = tdd.start`. -/
theorem coordinator_fast_path_witness :
    containsStr (buildPrompt c9_ralph false "") "FAST PATH" = true ∧
    containsStr (buildPrompt c9_ralph false "")
      ("Publish `" ++ "tdd.start" ++ "` immediately") = true ∧
    containsB (workflowSection c9_ralph false).data "### 1. PLAN".data = false ∧
    containsB (workflowSection c9_ralph true).data "FAST PATH".data = false := by
  have H := coordinator_fast_path c9_ralph
    [⟨"TDD Writer", ["tdd.start"], ["test.written"], ""⟩] "tdd.start" "" rfl
  obtain ⟨h1, h2, h3⟩ := H.1 rfl
  exact ⟨h1, h2, h3 (by decide), H.2 true (Or.inr rfl) (by decide)⟩
